import Mathlib

/-!
Verification of the DevForge-B2C core (Supabase edge functions):
the ingestion pipeline (chunking, local embedding, kNN graph construction)
and the hybrid query engine (vector ranking, one-hop graph expansion,
score fusion, label resolution).

Modelling conventions:
* JS numbers appearing in scores/weights are modelled over an arbitrary
  `LinearOrderedField α` (exact arithmetic; the spec's floating-point
  tolerances become exact equalities).
* 32-bit JS bit operations (`>>> 0`, `Math.imul`, `<<`, `>>>`, `^`) are
  modelled on `ℕ` with explicit `% 4294967296`.
* `Math.sqrt` is kept abstract as a parameter `sq : α → α`; theorems that
  need its defining property take `sq x ^ 2 = x` as a hypothesis and
  witnesses instantiate it with `Real.sqrt`.
* JS strings are modelled as `List Char` (and as `List ℕ` of code units
  where the source uses `charCodeAt`).
* `Array.prototype.sort` (stable, per the ECMAScript spec) is modelled by
  `List.insertionSort`, which is stable and kernel-reducible.
-/

namespace DF

/-- Reduction of a JS 32-bit unsigned value (`>>> 0`). -/
def u32 (n : ℕ) : ℕ := n % 4294967296

/-- Sum of squares of a list (the `norm` accumulator loops in the source). -/
def sumSq {α : Type} [LinearOrderedField α] (v : List α) : α :=
  (v.map (fun x => x * x)).sum

/-- Dot-product accumulator of the source's `cosine`. -/
def dotProd {α : Type} [LinearOrderedField α] (a b : List α) : α :=
  (List.zipWith (fun x y => x * y) a b).sum

/-- The FNV-1a style seed fold of `localEmbedding`
(`seed ^= text.charCodeAt(i); seed = Math.imul(seed, 16777619) >>> 0`). -/
def fnvSeed (text : List ℕ) : ℕ :=
  text.foldl (fun s c => u32 ((s ^^^ c) * 16777619)) 2166136261

/-- The per-dimension scrambled value of `localEmbedding`: XOR the seed with
`i + 0x9e3779b9`, then xorshift (left 13, right 17, left 5), each folded into
32 unsigned bits. -/
def dimScramble (seed i : ℕ) : ℕ :=
  let s0 := u32 (seed ^^^ u32 (i + 2654435769))
  let s1 := u32 (s0 ^^^ u32 (s0 * 8192))
  let s2 := u32 (s1 ^^^ s1 / 131072)
  u32 (s2 ^^^ u32 (s2 * 32))

/-- The raw (pre-normalization) 768-dimension vector of `localEmbedding`:
entry `i` is `((s % 10000) / 10000) * 2 - 1`. -/
def rawVec {α : Type} [LinearOrderedField α] (text : List ℕ) : List α :=
  (List.range 768).map (fun i =>
    (((dimScramble (fnvSeed text) i % 10000 : ℕ) : α) / 10000) * 2 - 1)

/-- Squared L2 norm of the raw vector (the `norm` accumulator before
`Math.sqrt`). -/
def rawNormSq {α : Type} [LinearOrderedField α] (text : List ℕ) : α :=
  sumSq (rawVec (α := α) text)

/-- `localEmbedding` as defined in the hybrid-search edge function
(src/unnamed/part_003 lines 255-282).  `sq` stands for `Math.sqrt`;
`norm = Math.sqrt(norm) || 1` is the `if … = 0 then 1` fallback. -/
def localEmbeddingSearch {α : Type} [LinearOrderedField α] (sq : α → α)
    (text : List ℕ) : List α :=
  let seed := text.foldl (fun s c => u32 ((s ^^^ c) * 16777619)) 2166136261
  let vec : List α := (List.range 768).map (fun i =>
    let s0 := u32 (seed ^^^ u32 (i + 2654435769))
    let s1 := u32 (s0 ^^^ u32 (s0 * 8192))
    let s2 := u32 (s1 ^^^ s1 / 131072)
    let s3 := u32 (s2 ^^^ u32 (s2 * 32))
    (((s3 % 10000 : ℕ) : α) / 10000) * 2 - 1)
  let norm0 := (vec.map (fun x => x * x)).sum
  let norm := if sq norm0 = 0 then 1 else sq norm0
  vec.map (fun x => x / norm)

/-- `localEmbedding` as defined in the process-file edge function
(src/unnamed/part_003 lines 510-535); the `async` wrapper is synchronous
work, so it is modelled as the same pure function shape. -/
def localEmbeddingProcess {α : Type} [LinearOrderedField α] (sq : α → α)
    (text : List ℕ) : List α :=
  let seed := text.foldl (fun s c => u32 ((s ^^^ c) * 16777619)) 2166136261
  let vec : List α := (List.range 768).map (fun i =>
    let s0 := u32 (seed ^^^ u32 (i + 2654435769))
    let s1 := u32 (s0 ^^^ u32 (s0 * 8192))
    let s2 := u32 (s1 ^^^ s1 / 131072)
    let s3 := u32 (s2 ^^^ u32 (s2 * 32))
    (((s3 % 10000 : ℕ) : α) / 10000) * 2 - 1)
  let norm0 := (vec.map (fun x => x * x)).sum
  let norm := if sq norm0 = 0 then 1 else sq norm0
  vec.map (fun x => x / norm)

/-! ### Chunker (`splitIntoChunks`, src/unnamed/part_003 lines 537-539)

`text.match(/(.|\n){1,500}/g) || []`: the class `(.|\n)` matches every
character except the line terminators `\r`, U+2028 and U+2029 (JS `.`
excludes all four line terminators and the alternation re-admits only
`\n`).  The global match therefore skips excluded characters and cuts the
remaining maximal runs greedily into pieces of at most 500 characters. -/

/-- A character matched by `(.|\n)`: everything except `\r`, U+2028, U+2029. -/
def chunkChar (c : Char) : Bool :=
  !(c == '\r' || c.toNat == 8232 || c.toNat == 8233)

/-- Fuel-driven scan of the global regex match: at a matching position take
greedily up to 500 matching characters as one chunk; at a non-matching
position advance by one character.  Fuel at least `text.length` makes the
zero-fuel branch unreachable. -/
def chunksFuel : ℕ → List Char → List (List Char)
  | 0, _ => []
  | _ + 1, [] => []
  | fuel + 1, c :: rest =>
    if chunkChar c then
      ((c :: rest).takeWhile chunkChar).take 500
        :: chunksFuel fuel ((c :: rest).drop (((c :: rest).takeWhile chunkChar).take 500).length)
    else
      chunksFuel fuel rest

def splitIntoChunks (text : List Char) : List (List Char) :=
  chunksFuel text.length text

/-- "`a` may be placed before `b`" for a descending sort by `key`. -/
def keyDesc {α : Type} [LinearOrder α] {β : Type} (key : β → α) (a b : β) : Prop :=
  key b ≤ key a

instance {α : Type} [LinearOrder α] {β : Type} (key : β → α) :
    DecidableRel (keyDesc key) :=
  fun a b => inferInstanceAs (Decidable (key b ≤ key a))

instance {α : Type} [LinearOrder α] {β : Type} (key : β → α) :
    IsTotal β (keyDesc key) :=
  ⟨fun a b => le_total (key b) (key a)⟩

instance {α : Type} [LinearOrder α] {β : Type} (key : β → α) :
    IsTrans β (keyDesc key) :=
  ⟨fun _ _ _ h1 h2 => le_trans h2 h1⟩

/-- Strict lexicographic "descending key, then ascending index" order; a
stable descending sort of an index-increasing list is sorted for it. -/
def lexDesc {α : Type} [LinearOrder α] {β : Type} (key : β → α) (idx : β → ℕ)
    (a b : β) : Prop :=
  key b < key a ∨ (key a = key b ∧ idx a < idx b)

/-- A JSON metadata value (`Record<string, unknown>` entries). -/
inductive MetaVal : Type where
  | str (s : List Char)
  | arr (l : List MetaVal)
  | other

/-- A row of the `nodes` relation (`NodeRecord` in the source). -/
structure NodeRecord (α : Type) where
  id : List Char
  file_id : List Char
  node_type : List Char
  content : List Char
  embedding : List α
  metadata : Option (List (List Char × MetaVal))

/-- A row of the `edges` relation (`EdgeRecord` in the source). -/
structure EdgeRecord (α : Type) where
  source_node_id : List Char
  target_node_id : List Char
  weight : α

structure VectorResult (α : Type) where
  nodeId : List Char
  nodeType : List Char
  content : List Char
  vectorScore : α
deriving DecidableEq

structure GraphResult (α : Type) where
  nodeId : List Char
  sourceNode : List Char
  graphScore : α
  distance : ℕ
  path : List (List Char)
  pathLabels : List (List Char)
  matchingSentence : Option (List Char)
  matchingWords : List (List Char)
  nodeType : Option (List Char)
  content : Option (List Char)
deriving DecidableEq

structure CombinedResult (α : Type) where
  nodeId : List Char
  nodeType : Option (List Char)
  content : Option (List Char)
  vectorScore : α
  graphScore : α
  connections : ℕ
deriving DecidableEq

structure HybridResult (α : Type) extends CombinedResult α where
  hybridScore : α
deriving DecidableEq

/-! ### Vector ranking (src/unnamed/part_003 lines 105-113)

`typedNodes.map(node => {nodeId, nodeType, content, vectorScore:
cosine(queryEmbedding, node.embedding)}).sort((a, b) => b.vectorScore -
a.vectorScore).slice(0, topK)`.  The score function is abstracted as a
parameter (the caller passes the cosine against the query embedding). -/
def vectorRank {α : Type} [LinearOrderedField α] (score : NodeRecord α → α)
    (nodes : List (NodeRecord α)) (topK : ℕ) : List (VectorResult α) :=
  ((nodes.map (fun node =>
      ⟨node.id, node.node_type, node.content, score node⟩ : NodeRecord α → VectorResult α)).insertionSort
    (keyDesc VectorResult.vectorScore)).take topK

/-! ### Fusion of vector and graph results (src/unnamed/part_003 lines 171-210)

The source builds a JS `Map` (insertion-ordered, `set` replaces in place):
vector results are inserted first with `graphScore: 0, connections: 0`;
each graph result then either updates an existing entry
(`graphScore = Math.max(existing.graphScore, g.graphScore);
connections++`) or appends a new entry with `vectorScore: 0`.  The map is
modelled as an insertion-ordered association list keyed by `nodeId`. -/

/-- The combined entry a vector result is inserted as (lines 174-180). -/
def vectorSeed {α : Type} [LinearOrderedField α] (v : VectorResult α) :
    CombinedResult α :=
  ⟨v.nodeId, some v.nodeType, some v.content, v.vectorScore, 0, 0⟩

/-- JS `Map.set`: replace the value at an existing key in place, else append. -/
def mapSet {α : Type} [LinearOrderedField α] (m : List (CombinedResult α))
    (c : CombinedResult α) : List (CombinedResult α) :=
  if (m.find? (fun x => x.nodeId = c.nodeId)).isSome then
    m.map (fun x => if x.nodeId = c.nodeId then c else x)
  else m ++ [c]

/-- Merging one graph result into the map (lines 183-200).  `find` models
`nodeLookup.get` for the fields of a newly created entry. -/
def mergeGraph {α : Type} [LinearOrderedField α]
    (find : List Char → Option (NodeRecord α))
    (m : List (CombinedResult α)) (g : GraphResult α) : List (CombinedResult α) :=
  match m.find? (fun x => x.nodeId = g.nodeId) with
  | some _ =>
    m.map (fun x =>
      if x.nodeId = g.nodeId then
        { x with graphScore := max x.graphScore g.graphScore,
                 connections := x.connections + 1 }
      else x)
  | none =>
    m ++ [⟨g.nodeId, (find g.nodeId).map NodeRecord.node_type,
      (find g.nodeId).map NodeRecord.content, 0, g.graphScore, 1⟩]

/-- The merged map of lines 171-200, in insertion order. -/
def mergeResults {α : Type} [LinearOrderedField α]
    (find : List Char → Option (NodeRecord α)) (vr : List (VectorResult α))
    (gr : List (GraphResult α)) : List (CombinedResult α) :=
  gr.foldl (mergeGraph find) (vr.foldl (fun acc v => mapSet acc (vectorSeed v)) [])

/-- Hybrid scoring, final stable descending sort and truncation
(lines 203-210). -/
def hybridRank {α : Type} [LinearOrderedField α]
    (find : List Char → Option (NodeRecord α)) (vr : List (VectorResult α))
    (gr : List (GraphResult α)) (vectorWeight graphWeight : α) (topK : ℕ) :
    List (HybridResult α) :=
  (((mergeResults find vr gr).map (fun result =>
      ⟨result, result.vectorScore * vectorWeight + result.graphScore * graphWeight⟩
        : CombinedResult α → HybridResult α)).insertionSort
    (keyDesc HybridResult.hybridScore)).take topK

/-! ### Label and lexical-match resolver (src/unnamed/part_003 lines 297-403) -/

/-- ECMAScript whitespace as matched by `\s` and removed by `trim`:
WhiteSpace ∪ LineTerminator. -/
def jsWs (c : Char) : Bool :=
  c.toNat == 0x9 || c.toNat == 0xA || c.toNat == 0xB || c.toNat == 0xC ||
  c.toNat == 0xD || c.toNat == 0x20 || c.toNat == 0xA0 || c.toNat == 0x1680 ||
  (decide (0x2000 ≤ c.toNat) && decide (c.toNat ≤ 0x200A)) ||
  c.toNat == 0x2028 || c.toNat == 0x2029 || c.toNat == 0x202F ||
  c.toNat == 0x205F || c.toNat == 0x3000 || c.toNat == 0xFEFF

/-- JS `String.prototype.trim`. -/
def jsTrim (l : List Char) : List Char :=
  ((l.dropWhile jsWs).reverse.dropWhile jsWs).reverse

/-- `replace(/\s+/g, " ")`: each maximal whitespace run becomes one space.
The flag records whether the previous character was whitespace. -/
def collapseWsAux : Bool → List Char → List Char
  | _, [] => []
  | prevWs, c :: rest =>
    if jsWs c then
      if prevWs then collapseWsAux true rest
      else ' ' :: collapseWsAux true rest
    else c :: collapseWsAux false rest

def collapseWs (l : List Char) : List Char := collapseWsAux false l

/-- `replace(/[\r\n]/g, " ")` (a no-op after the `\s+` collapse, but
transcribed for fidelity). -/
def stripCrLf (l : List Char) : List Char :=
  l.map (fun c => if c = '\r' ∨ c = '\n' then ' ' else c)

/-- JS `split(" ")` with the single-space separator. -/
def splitOnSpaceAux : List Char → List Char → List (List Char)
  | acc, [] => [acc.reverse]
  | acc, c :: rest =>
    if c = ' ' then acc.reverse :: splitOnSpaceAux [] rest
    else splitOnSpaceAux (c :: acc) rest

def splitOnSpace (l : List Char) : List (List Char) := splitOnSpaceAux [] l

/-- JS `Array.prototype.join(" ")`. -/
def joinSpace (ws : List (List Char)) : List Char := List.intercalate [' '] ws

/-- JS object property read (`metadata[key]`), metadata modelled as an
association list with distinct keys. -/
def mLookup (meta : List (List Char × MetaVal)) (k : List Char) : Option MetaVal :=
  (meta.find? (fun e => e.1 = k)).map Prod.snd

/-- `extractMetadataLabel` (lines 329-353): first preferred field holding a
string with non-empty trim wins (trimmed); else the first such string in
`metadata.keywords`; else nothing. -/
def extractMetadataLabel (metadata : Option (List (List Char × MetaVal))) :
    Option (List Char) :=
  match metadata with
  | none => none
  | some meta =>
    match [("label").data, ("title").data, ("name").data, ("keyword").data,
        ("heading").data, ("topic").data].findSome? (fun k =>
      match mLookup meta k with
      | some (.str v) => if jsTrim v ≠ [] then some (jsTrim v) else none
      | _ => none) with
    | some s => some s
    | none =>
      match mLookup meta ("keywords").data with
      | some (.arr ks) =>
        ks.findSome? (fun kv =>
          match kv with
          | .str v => if jsTrim v ≠ [] then some (jsTrim v) else none
          | _ => none)
      | _ => none

/-- `deriveNodeLabel` (lines 300-327). -/
def deriveNodeLabel {α : Type} (node : Option (NodeRecord α)) : List Char :=
  match node with
  | none => ("Unknown").data
  | some node =>
    match extractMetadataLabel node.metadata with
    | some l => l
    | none =>
      let cleanedContent := jsTrim (stripCrLf (collapseWs node.content))
      if cleanedContent ≠ [] then
        let words := (splitOnSpace cleanedContent).filter (fun w => w ≠ [])
        let snippet := joinSpace (words.take 3)
        if 40 < snippet.length then jsTrim (snippet.take 40) ++ ("...").data
        else if snippet ≠ [] then snippet else node.id
      else node.id

/-- The claim's literal wording of the label resolution (C9), for
comparison with the implementation: "the first non-empty string among
metadata fields label, title, name, keyword, heading, topic; else the
first non-empty string in metadata.keywords; else the first 3
whitespace-tokenized words of the node's content with internal whitespace
collapsed, truncated to 40 characters with an ellipsis if longer; else the
raw node id" — reading "non-empty" literally (`≠ ""`) and returning the
winning value unmodified. -/
def deriveLabelClaim {α : Type} (node : NodeRecord α) : List Char :=
  let fromKey : List Char → Option (List Char) := fun k =>
    match node.metadata with
    | none => none
    | some meta =>
      match mLookup meta k with
      | some (.str v) => if v ≠ [] then some v else none
      | _ => none
  match [("label").data, ("title").data, ("name").data, ("keyword").data,
      ("heading").data, ("topic").data].findSome? fromKey with
  | some s => s
  | none =>
    match (match node.metadata with
      | none => none
      | some meta =>
        match mLookup meta ("keywords").data with
        | some (.arr ks) =>
          ks.findSome? (fun kv =>
            match kv with
            | .str v => if v ≠ [] then some v else none
            | _ => none)
        | _ => none) with
    | some s => s
    | none =>
      let words := (splitOnSpace (jsTrim (stripCrLf (collapseWs node.content)))).filter
        (fun w => w ≠ [])
      let snippet := joinSpace (words.take 3)
      if words = [] then node.id
      else if 40 < snippet.length then snippet.take 40 ++ ("...").data
      else snippet

/-- The claim as amended (C9): as `deriveLabelClaim`, but "non-empty"
means containing a non-whitespace character, the winning metadata value is
returned with surrounding whitespace trimmed, and the 40-character
truncation drops trailing whitespace before appending the ellipsis. -/
def deriveLabelAmended {α : Type} (node : NodeRecord α) : List Char :=
  let fromKey : List Char → Option (List Char) := fun k =>
    match node.metadata with
    | none => none
    | some meta =>
      match mLookup meta k with
      | some (.str v) => if jsTrim v ≠ [] then some (jsTrim v) else none
      | _ => none
  match [("label").data, ("title").data, ("name").data, ("keyword").data,
      ("heading").data, ("topic").data].findSome? fromKey with
  | some s => s
  | none =>
    match (match node.metadata with
      | none => none
      | some meta =>
        match mLookup meta ("keywords").data with
        | some (.arr ks) =>
          ks.findSome? (fun kv =>
            match kv with
            | .str v => if jsTrim v ≠ [] then some (jsTrim v) else none
            | _ => none)
        | _ => none) with
    | some s => s
    | none =>
      let words := (splitOnSpace (jsTrim (stripCrLf (collapseWs node.content)))).filter
        (fun w => w ≠ [])
      let snippet := joinSpace (words.take 3)
      if words = [] then node.id
      else if 40 < snippet.length then jsTrim (snippet.take 40) ++ ("...").data
      else snippet

/-- `[a-z0-9]` after lowercasing. -/
def isTok (c : Char) : Bool :=
  (decide ('a' ≤ c) && decide (c ≤ 'z')) || (decide ('0' ≤ c) && decide (c ≤ '9'))

/-- Maximal `[a-z0-9]+` runs (`match(/[a-z0-9]+/g)`); the accumulator holds
the current run reversed. -/
def tokenRunsAux : List Char → List Char → List (List Char)
  | acc, [] => if acc = [] then [] else [acc.reverse]
  | acc, c :: rest =>
    if isTok c then tokenRunsAux (c :: acc) rest
    else if acc = [] then tokenRunsAux [] rest
    else acc.reverse :: tokenRunsAux [] rest

def tokenRuns (l : List Char) : List (List Char) :=
  tokenRunsAux [] (l.map Char.toLower)

/-- A JS `Set` built by insertion, as the list of first occurrences. -/
def firstDedupAux : List (List Char) → List (List Char) → List (List Char)
  | _, [] => []
  | seen, t :: rest =>
    if t ∈ seen then firstDedupAux seen rest
    else t :: firstDedupAux (t :: seen) rest

/-- `buildQueryTokenSet` (lines 355-360). -/
def buildQueryTokenSet (query : List Char) : List (List Char) :=
  firstDedupAux [] (tokenRuns query)

/-- A sentence terminator for the lookbehind split `(?<=[.!?])\s+`: the
accumulator's head (the previously read character) ends a sentence. -/
def isSentEnd : List Char → Bool
  | p :: _ => p == '.' || p == '!' || p == '?'
  | [] => false

/-- `content.split(/(?<=[.!?])\s+/)`: break after `.`/`!`/`?` followed by
whitespace, consuming the whitespace run (mode `true` = inside the
separator). -/
def splitSentGo : Bool → List Char → List Char → List (List Char)
  | _, acc, [] => [acc.reverse]
  | true, acc, c :: rest =>
    if jsWs c then splitSentGo true acc rest
    else splitSentGo false (c :: acc) rest
  | false, acc, c :: rest =>
    if jsWs c && isSentEnd acc then acc.reverse :: splitSentGo true [] rest
    else splitSentGo false (c :: acc) rest

def splitSentences (content : List Char) : List (List Char) :=
  ((splitSentGo false [] content).map jsTrim).filter (fun s => s ≠ [])

/-- `extractMatchingSentence` (lines 362-383). -/
def extractMatchingSentence (content : Option (List Char))
    (queryTokens : List (List Char)) : Option (List Char) :=
  match content with
  | none => none
  | some content =>
    if content = [] ∨ queryTokens = [] then none
    else
      let sentences := splitSentences content
      match sentences.find? (fun s =>
        (tokenRuns s).any (fun t => t ∈ queryTokens)) with
      | some s => some s
      | none => sentences.head?

/-- `extractMatchingWords` (lines 385-403). -/
def extractMatchingWords (content : Option (List Char))
    (queryTokens : List (List Char)) : List (List Char) :=
  match content with
  | none => []
  | some content =>
    if content = [] ∨ queryTokens = [] then []
    else firstDedupAux [] ((tokenRuns content).filter (fun t => t ∈ queryTokens))

/-! ### Cosine similarity and the kNN graph builder -/

/-- `cosine` (identical in both edge functions, lines 287-295 and 541-549):
`dot / (Math.sqrt(na) * Math.sqrt(nb))`, the accumulation loops running
over `a`'s indices (so `nb` sums over the first `a.length` entries of
`b`). -/
def cosine {α : Type} [LinearOrderedField α] (sq : α → α) (a b : List α) : α :=
  dotProd a b / (sq (sumSq a) * sq (sumSq (b.take a.length)))

structure ScoreEntry (α : Type) where
  j : ℕ
  sim : α
deriving DecidableEq

/-- The inner similarity loop of process-file (lines 463-470): `{j, sim}`
entries for every `j ≠ i`, in ingestion order. -/
def nodeScores {α : Type} [LinearOrderedField α] (sim : ℕ → ℕ → α) (n i : ℕ) :
    List (ScoreEntry α) :=
  (List.range n).filterMap (fun j => if i = j then none else some ⟨j, sim i j⟩)

/-- `scores.sort((a, b) => b.sim - a.sim).slice(0, 5)` (line 472). -/
def nodeTop5 {α : Type} [LinearOrderedField α] (sim : ℕ → ℕ → α) (n i : ℕ) :
    List (ScoreEntry α) :=
  ((nodeScores sim n i).insertionSort (keyDesc ScoreEntry.sim)).take 5

/-- A row pushed into the `edges` batch (lines 474-481). -/
structure EdgeOut (α : Type) where
  source_node_id : List Char
  target_node_id : List Char
  edge_type : List Char
  weight : α
deriving DecidableEq

/-- The edge batch of process-file (lines 459-484). -/
def buildEdges {α : Type} [LinearOrderedField α] (ids : List (List Char))
    (sim : ℕ → ℕ → α) : List (EdgeOut α) :=
  (List.range ids.length).flatMap (fun i =>
    (nodeTop5 sim ids.length i).map (fun t =>
      ⟨ids.getD i [], ids.getD t.j [], ("semantic").data, t.sim⟩))

/-! ### The process-file edge function (src/unnamed/part_003 lines 412-507) -/

structure ProcessOutput (α : Type) where
  success : Bool
  nodesCreated : ℕ
  edgesCreated : ℕ
  fileStatus : List Char
deriving DecidableEq

/-- The success path of process-file applied to the downloaded text: chunk,
embed each chunk, create one node per chunk (node ids assigned by the
store, abstracted as `idOf`), build the kNN edge batch from cosine
similarities of the chunk embeddings, set the file's status to
"completed", and return `{success: true, nodesCreated, edgesCreated}`. -/
def processFile {α : Type} [LinearOrderedField α] (sq : α → α)
    (idOf : ℕ → List Char) (text : List Char) : ProcessOutput α :=
  let chunks := splitIntoChunks text
  let embeddings := chunks.map (fun chunk =>
    localEmbeddingProcess sq (chunk.map Char.toNat))
  let edges := buildEdges ((List.range chunks.length).map idOf)
    (fun i j => cosine sq (embeddings.getD i []) (embeddings.getD j []))
  ⟨true, chunks.length, edges.length, ("completed").data⟩

/-! ### The hybrid-search edge function (src/unnamed/part_003 lines 65-248) -/

structure VizNode where
  id : List Char
  nodeType : List Char
  content : List Char
  label : List Char

structure VizLink (α : Type) where
  source : List Char
  target : List Char
  weight : α

structure SearchOutput (α : Type) where
  vectorResults : List (VectorResult α)
  graphResults : List (GraphResult α)
  hybridResults : List (HybridResult α)
  vizNodes : List VizNode
  vizLinks : List (VizLink α)

/-- The hybrid-search request handler on the persisted corpus
(`nodesTable`, `edgesTable` model the two relations; the store queries
`.eq("file_id", fileId)` and `.in(…)` are row filters).  A thrown error
aborts the request as a whole: the `Except.error` carries the message and
no partial results. -/
def hybridSearch {α : Type} [LinearOrderedField α] (sq : α → α)
    (query : List Char) (fileId : List Char) (vectorWeight graphWeight : α)
    (topK : ℕ) (nodesTable : List (NodeRecord α))
    (edgesTable : List (EdgeRecord α)) : Except (List Char) (SearchOutput α) :=
  let queryEmbedding := localEmbeddingSearch sq (query.map Char.toNat)
  let nodes := nodesTable.filter (fun node => node.file_id = fileId)
  if nodes.length = 0 then
    Except.error ("No nodes found for this file").data
  else
    let vectorResults := vectorRank
      (fun node => cosine sq queryEmbedding node.embedding) nodes topK
    let topNodeIds := vectorResults.map VectorResult.nodeId
    let typedEdges := edgesTable.filter (fun e => e.source_node_id ∈ topNodeIds)
    let edgeNodeIds := firstDedupAux []
      (typedEdges.flatMap (fun e => [e.source_node_id, e.target_node_id]))
    let missingNodeIds := edgeNodeIds.filter
      (fun i => (nodes.find? (fun n => n.id = i)).isNone)
    let nodeLookup : List Char → Option (NodeRecord α) := fun i =>
      match nodes.find? (fun n => n.id = i) with
      | some n => some n
      | none =>
        if i ∈ missingNodeIds then nodesTable.find? (fun n => n.id = i)
        else none
    let queryTokens := buildQueryTokenSet query
    let graphResults : List (GraphResult α) := typedEdges.map (fun edge =>
      { nodeId := edge.target_node_id
        sourceNode := edge.source_node_id
        graphScore := edge.weight
        distance := 1
        path := [edge.source_node_id, edge.target_node_id]
        pathLabels := [edge.source_node_id, edge.target_node_id].map
          (fun i => deriveNodeLabel (nodeLookup i))
        matchingSentence := extractMatchingSentence
          ((nodeLookup edge.target_node_id).map NodeRecord.content) queryTokens
        matchingWords := extractMatchingWords
          ((nodeLookup edge.target_node_id).map NodeRecord.content) queryTokens
        nodeType := (nodeLookup edge.target_node_id).map NodeRecord.node_type
        content := (nodeLookup edge.target_node_id).map NodeRecord.content })
    let hybridResults := hybridRank nodeLookup vectorResults graphResults
      vectorWeight graphWeight topK
    Except.ok
      { vectorResults := vectorResults
        graphResults := graphResults
        hybridResults := hybridResults
        vizNodes := nodes.map (fun node =>
          ⟨node.id, node.node_type, node.content, deriveNodeLabel (some node)⟩)
        vizLinks := typedEdges.map (fun e =>
          ⟨e.source_node_id, e.target_node_id, e.weight⟩) }

/-! ## Theorems -/

theorem localEmbeddingProcess_eq {α : Type} [LinearOrderedField α] (sq : α → α)
    (t : List ℕ) :
    localEmbeddingProcess sq t
      = (rawVec t).map (fun x =>
          x / (if sq (rawNormSq (α := α) t) = 0 then 1 else sq (rawNormSq (α := α) t))) :=
  rfl

theorem sumSq_cons {α : Type} [LinearOrderedField α] (x : α) (l : List α) :
    sumSq (x :: l) = x * x + sumSq l := by
  simp [sumSq]

theorem sumSq_nonneg {α : Type} [LinearOrderedField α] (v : List α) :
    0 ≤ sumSq v := by
  induction v with
  | nil => simp [sumSq]
  | cons x l ih => rw [sumSq_cons]; exact add_nonneg (mul_self_nonneg x) ih

theorem sumSq_eq_zero {α : Type} [LinearOrderedField α] {v : List α}
    (h : sumSq v = 0) : ∀ x ∈ v, x = 0 := by
  induction v with
  | nil => simp
  | cons x l ih =>
    rw [sumSq_cons] at h
    have hx : x * x = 0 ∧ sumSq l = 0 := by
      constructor
      · nlinarith [sumSq_nonneg l, mul_self_nonneg x]
      · nlinarith [sumSq_nonneg l, mul_self_nonneg x]
    intro y hy
    rcases List.mem_cons.1 hy with hy | hy
    · subst hy; exact mul_self_eq_zero.1 hx.1
    · exact ih hx.2 y hy

theorem sumSq_map_div {α : Type} [LinearOrderedField α] (v : List α) (c : α) :
    sumSq (v.map (fun x => x / c)) = sumSq v / (c * c) := by
  induction v with
  | nil => simp [sumSq]
  | cons x l ih =>
    rw [List.map_cons, sumSq_cons, sumSq_cons, ih, add_div, div_mul_div_comm]

theorem rawNormSq_nonneg {α : Type} [LinearOrderedField α] (t : List ℕ) :
    0 ≤ rawNormSq (α := α) t :=
  sumSq_nonneg _

/-- C5: the embedding function of the query engine (hybrid-search) and the
embedding function of the ingestion pipeline (process-file) are extensionally
equal: for every text and every square-root function they produce the same
768-dimension vector. -/
theorem C5_embedding_consistency {α : Type} [LinearOrderedField α]
    (sq : α → α) (t : List ℕ) :
    localEmbeddingSearch sq t = localEmbeddingProcess sq t :=
  rfl

/-- C6: the vector returned by `localEmbedding` has dimension 768; whenever
the raw squared norm is nonzero (which the claim's "non-empty text" case
asserts), the L2 norm of the result is exactly 1 — stated as the sum of
squares being 1, which for a nonnegative norm is equivalent and avoids
square roots; and in the zero-norm case the divisor is treated as 1 and
the vector stays the all-zero raw vector.  The hypothesis states the one
property of `Math.sqrt` used: `sq x ^ 2 = x` at the raw squared norm. -/
theorem C6_localEmbedding_normalized {α : Type} [LinearOrderedField α]
    (sq : α → α) (t : List ℕ)
    (hsq : sq (rawNormSq (α := α) t) ^ 2 = rawNormSq (α := α) t) :
    (localEmbeddingProcess sq t).length = 768
    ∧ (rawNormSq (α := α) t ≠ 0 → sumSq (localEmbeddingProcess sq t) = 1)
    ∧ (rawNormSq (α := α) t = 0 →
        localEmbeddingProcess sq t = rawVec t
        ∧ ∀ x ∈ localEmbeddingProcess sq t, x = 0) := by
  refine ⟨?_, ?_, ?_⟩
  · rw [localEmbeddingProcess_eq, List.length_map, rawVec, List.length_map,
      List.length_range]
  · intro h0
    have hne : sq (rawNormSq (α := α) t) ≠ 0 := by
      intro hz
      rw [hz] at hsq
      exact h0 (by simpa using hsq.symm)
    rw [localEmbeddingProcess_eq, if_neg hne, sumSq_map_div]
    rw [← pow_two, hsq, rawNormSq]
    exact div_self h0
  · intro h0
    have hz : sq (rawNormSq (α := α) t) = 0 := by
      have := hsq
      rw [h0] at this ⊢
      exact pow_eq_zero_iff (n := 2) (by norm_num) |>.1 this
    have hvec : localEmbeddingProcess sq t = rawVec t := by
      rw [localEmbeddingProcess_eq, if_pos hz]
      simp
    refine ⟨hvec, ?_⟩
    rw [hvec]
    exact sumSq_eq_zero (by simpa [rawNormSq] using h0)

/-- Witness for C6 at the concrete text "a" (code unit 97) over `ℝ` with the
real square root. -/
theorem C6_witness :
    Real.sqrt (rawNormSq ([97] : List ℕ)) ^ 2 = rawNormSq ([97] : List ℕ)
    ∧ ((localEmbeddingProcess Real.sqrt [97]).length = 768
      ∧ (rawNormSq (α := ℝ) [97] ≠ 0 →
          sumSq (localEmbeddingProcess Real.sqrt [97]) = 1)
      ∧ (rawNormSq (α := ℝ) [97] = 0 →
          localEmbeddingProcess Real.sqrt [97] = rawVec [97]
          ∧ ∀ x ∈ localEmbeddingProcess Real.sqrt [97], x = 0)) :=
  ⟨Real.sq_sqrt (rawNormSq_nonneg _),
   C6_localEmbedding_normalized Real.sqrt [97] (Real.sq_sqrt (rawNormSq_nonneg _))⟩

theorem chunksFuel_nil (fuel : ℕ) : chunksFuel fuel [] = [] := by
  cases fuel <;> rfl

theorem chunksFuel_length_le :
    ∀ (fuel : ℕ) (t : List Char), ∀ ch ∈ chunksFuel fuel t, ch.length ≤ 500 := by
  intro fuel
  induction fuel with
  | zero => intro t ch h; simp [chunksFuel] at h
  | succ f ih =>
    intro t ch h
    match t with
    | [] => simp [chunksFuel] at h
    | c :: rest =>
      rw [chunksFuel] at h
      by_cases hc : chunkChar c
      · rw [if_pos hc] at h
        rcases List.mem_cons.1 h with h | h
        · subst h
          rw [List.length_take]
          exact min_le_left _ _
        · exact ih _ ch h
      · rw [if_neg hc] at h
        exact ih _ ch h

theorem takeWhile_of_all {p : Char → Bool} :
    ∀ {t : List Char}, (∀ c ∈ t, p c) → t.takeWhile p = t := by
  intro t
  induction t with
  | nil => intro _; rfl
  | cons c rest ih =>
    intro h
    rw [List.takeWhile_cons, if_pos (h c (List.mem_cons_self c rest))]
    rw [ih (fun x hx => h x (List.mem_cons_of_mem c hx))]

theorem drop_length_take (t : List Char) (n : ℕ) :
    t.drop ((t.take n).length) = t.drop n := by
  rw [List.length_take]
  rcases le_total n t.length with h | h
  · rw [min_eq_left h]
  · rw [min_eq_right h, List.drop_length, List.drop_eq_nil_of_le h]

theorem chunksFuel_flatten :
    ∀ (fuel : ℕ) (t : List Char), t.length ≤ fuel → (∀ c ∈ t, chunkChar c) →
      (chunksFuel fuel t).flatten = t := by
  intro fuel
  induction fuel with
  | zero =>
    intro t hlen _
    have : t = [] := List.length_eq_zero.1 (Nat.le_zero.1 hlen)
    subst this; rfl
  | succ f ih =>
    intro t hlen hall
    match t with
    | [] => rfl
    | c :: rest =>
      rw [chunksFuel, if_pos (hall c (List.mem_cons_self c rest))]
      rw [takeWhile_of_all hall, List.flatten_cons]
      rw [ih ((c :: rest).drop ((List.take 500 (c :: rest)).length))
        (by
          rw [drop_length_take, List.length_drop]
          have h2 : (c :: rest).length ≤ f + 1 := hlen
          have h3 : 0 < (c :: rest).length := by simp
          omega)
        (fun x hx => hall x (List.mem_of_mem_drop hx))]
      rw [drop_length_take, List.take_append_drop]

theorem chunksFuel_ne_nil (fuel : ℕ) (t : List Char)
    (h1 : 1 ≤ t.length) (hall : ∀ c ∈ t, chunkChar c) (hf : 1 ≤ fuel) :
    chunksFuel fuel t ≠ [] := by
  match fuel, t with
  | 0, _ => omega
  | f + 1, [] => simp at h1
  | f + 1, c :: rest =>
    rw [chunksFuel, if_pos (hall c (List.mem_cons_self c rest))]
    exact List.cons_ne_nil _ _

theorem chunksFuel_dropLast :
    ∀ (fuel : ℕ) (t : List Char), t.length ≤ fuel → (∀ c ∈ t, chunkChar c) →
      ∀ ch ∈ (chunksFuel fuel t).dropLast, ch.length = 500 := by
  intro fuel
  induction fuel with
  | zero => intro t _ _ ch h; simp [chunksFuel] at h
  | succ f ih =>
    intro t hlen hall ch h
    match t with
    | [] => simp [chunksFuel] at h
    | c :: rest =>
      have hlen' : (c :: rest).length ≤ f + 1 := hlen
      rw [chunksFuel, if_pos (hall c (List.mem_cons_self c rest)),
        takeWhile_of_all hall] at h
      by_cases hbig : 500 < (c :: rest).length
      · have hchunk : ((c :: rest).take 500).length = 500 := by
          rw [List.length_take]; omega
        have hrest :
            chunksFuel f ((c :: rest).drop (((c :: rest).take 500).length)) ≠ [] := by
          rw [drop_length_take]
          refine chunksFuel_ne_nil f _ ?_ ?_ ?_
          · rw [List.length_drop]; omega
          · exact fun x hx => hall x (List.mem_of_mem_drop hx)
          · omega
        match hrec : chunksFuel f ((c :: rest).drop (((c :: rest).take 500).length)) with
        | [] => exact absurd hrec hrest
        | r :: rs =>
          rw [hrec] at h
          rw [List.dropLast_cons₂] at h
          rcases List.mem_cons.1 h with h | h
          · subst h; exact hchunk
          · rw [← hrec] at h
            refine ih _ ?_ ?_ ch h
            · rw [drop_length_take, List.length_drop]
              omega
            · exact fun x hx => hall x (List.mem_of_mem_drop hx)
      · have hdrop : (c :: rest).drop (((c :: rest).take 500).length) = [] := by
          rw [drop_length_take]
          exact List.drop_eq_nil_of_le (by omega)
        rw [hdrop, chunksFuel_nil] at h
        simp at h

/-- C4 counterexample: for the input "a\rb" the chunker returns ["a", "b"]
(the carriage return is not matched by `(.|\n)`), so the concatenation of
the chunks is not the input, and a chunk other than the last is shorter
than 500 characters. -/
theorem C4_counterexample :
    splitIntoChunks ('a' :: '\r' :: ['b']) = [['a'], ['b']]
    ∧ (splitIntoChunks ('a' :: '\r' :: ['b'])).flatten ≠ 'a' :: '\r' :: ['b'] := by
  constructor
  · rfl
  · decide

/-- C4 (amended): for every input text containing none of the characters
`\r`, U+2028, U+2029, `splitIntoChunks` returns an ordered, non-overlapping
sequence of substrings whose concatenation equals the input (equivalently:
it is obtained by cutting the input into consecutive pieces), every chunk
has at most 500 characters, and every chunk except possibly the last has
exactly 500 characters. -/
theorem C4_splitIntoChunks_amended (t : List Char) (h : ∀ c ∈ t, chunkChar c) :
    (splitIntoChunks t).flatten = t
    ∧ (∀ ch ∈ splitIntoChunks t, ch.length ≤ 500)
    ∧ (∀ ch ∈ (splitIntoChunks t).dropLast, ch.length = 500) :=
  ⟨chunksFuel_flatten t.length t le_rfl h,
   fun ch hch => chunksFuel_length_le t.length t ch hch,
   fun ch hch => chunksFuel_dropLast t.length t le_rfl h ch hch⟩

/-- Witness for the amended C4 at the concrete input "abc". -/
theorem C4_witness :
    (∀ c ∈ ('a' :: 'b' :: ['c']), chunkChar c)
    ∧ ((splitIntoChunks ('a' :: 'b' :: ['c'])).flatten = 'a' :: 'b' :: ['c']
      ∧ (∀ ch ∈ splitIntoChunks ('a' :: 'b' :: ['c']), ch.length ≤ 500)
      ∧ (∀ ch ∈ (splitIntoChunks ('a' :: 'b' :: ['c'])).dropLast, ch.length = 500)) :=
  ⟨by decide, C4_splitIntoChunks_amended ('a' :: 'b' :: ['c']) (by decide)⟩

/-! ### Stable descending sort

`Array.prototype.sort` with comparator `(a, b) => keyOf(b) - keyOf(a)` is,
per the ECMAScript specification, a stable sort by descending key.  We
model it with `List.insertionSort` under the relation `keyDesc key`
("goes no later than"), which is stable and kernel-reducible, and prove
the sortedness/stability facts the claims need. -/

theorem sorted_insertionSort_keyDesc {α : Type} [LinearOrder α] {β : Type}
    (key : β → α) (l : List β) :
    (l.insertionSort (keyDesc key)).Sorted (keyDesc key) :=
  List.sorted_insertionSort (keyDesc key) l

theorem filter_orderedInsert_of_neg {α : Type} [LinearOrder α] {β : Type}
    (key : β → α) (p : β → Bool) (a : β) (hpa : p a = false) :
    ∀ L : List β, (List.orderedInsert (keyDesc key) a L).filter p = L.filter p := by
  intro L
  induction L with
  | nil => simp [hpa]
  | cons b t ih =>
    rw [List.orderedInsert]
    by_cases hab : keyDesc key a b
    · rw [if_pos hab, List.filter_cons, hpa]
      simp
    · rw [if_neg hab, List.filter_cons, List.filter_cons]
      cases hpb : p b
      · simpa [hpb] using ih
      · simpa [hpb] using ih

theorem filter_orderedInsert_of_key {α : Type} [LinearOrder α] {β : Type}
    (key : β → α) (s : α) (a : β) (ha : key a = s) :
    ∀ L : List β,
      (List.orderedInsert (keyDesc key) a L).filter (fun x => key x = s)
        = a :: L.filter (fun x => key x = s) := by
  intro L
  induction L with
  | nil => simp [ha]
  | cons b t ih =>
    rw [List.orderedInsert]
    by_cases hab : keyDesc key a b
    · rw [if_pos hab, List.filter_cons, decide_eq_true ha]
      simp
    · rw [if_neg hab]
      have hb : ¬(key b = s) := by
        intro hbs
        exact hab (by rw [keyDesc, hbs, ← ha])
      rw [List.filter_cons, List.filter_cons, decide_eq_false hb, ih]
      simp

/-- Filter-level stability of the modelled sort: elements with any one fixed
key value appear in the sorted list exactly in their input order. -/
theorem filter_insertionSort_key {α : Type} [LinearOrder α] {β : Type}
    (key : β → α) (s : α) (l : List β) :
    (l.insertionSort (keyDesc key)).filter (fun x => key x = s)
      = l.filter (fun x => key x = s) := by
  induction l with
  | nil => rfl
  | cons a t ih =>
    rw [List.insertionSort]
    by_cases ha : key a = s
    · rw [filter_orderedInsert_of_key key s a ha, ih, List.filter_cons,
        decide_eq_true ha]
      simp
    · rw [filter_orderedInsert_of_neg key _ a (decide_eq_false ha), ih,
        List.filter_cons, decide_eq_false ha]
      simp

theorem filter_take_append {β : Type} (p : β → Bool) :
    ∀ (l : List β) (n : ℕ), ∃ t, (l.take n).filter p ++ t = l.filter p := by
  intro l
  induction l with
  | nil => intro n; exact ⟨[], by simp⟩
  | cons a t ih =>
    intro n
    match n with
    | 0 => exact ⟨(a :: t).filter p, rfl⟩
    | n + 1 =>
      obtain ⟨u, hu⟩ := ih n
      refine ⟨u, ?_⟩
      rw [List.take_succ_cons, List.filter_cons, List.filter_cons]
      cases hpa : p a
      · simpa using hu
      · simpa using hu

theorem pairwise_lex_orderedInsert {α : Type} [LinearOrder α] {β : Type}
    (key : β → α) (idx : β → ℕ) (a : β) :
    ∀ L : List β, L.Pairwise (lexDesc key idx) → L.Sorted (keyDesc key) →
      (∀ b ∈ L, idx a < idx b) →
      (List.orderedInsert (keyDesc key) a L).Pairwise (lexDesc key idx) := by
  intro L
  induction L with
  | nil => intro _ _ _; simp
  | cons b t ih =>
    intro hL hS hidx
    rw [List.orderedInsert]
    by_cases hab : keyDesc key a b
    · rw [if_pos hab]
      refine List.pairwise_cons.2 ⟨?_, hL⟩
      intro x hx
      rcases List.mem_cons.1 hx with hx | hx
      · subst hx
        rcases lt_or_eq_of_le hab with h | h
        · exact Or.inl h
        · exact Or.inr ⟨h.symm, hidx x (List.mem_cons_self _ _)⟩
      · have hxb : key x ≤ key b := List.rel_of_sorted_cons hS x hx
        have hba : key b ≤ key a := hab
        rcases lt_or_eq_of_le (le_trans hxb hba) with h | h
        · exact Or.inl h
        · exact Or.inr ⟨h.symm, hidx x (List.mem_cons_of_mem _ hx)⟩
    · rw [if_neg hab]
      have hba : key a < key b := lt_of_not_le hab
      refine List.pairwise_cons.2 ⟨?_, ?_⟩
      · intro x hx
        rcases (List.mem_orderedInsert (keyDesc key)).1 hx with hx | hx
        · subst hx; exact Or.inl hba
        · exact (List.pairwise_cons.1 hL).1 x hx
      · exact ih (List.pairwise_cons.1 hL).2 hS.of_cons
          (fun x hx => hidx x (List.mem_cons_of_mem _ hx))

/-- Stability of the modelled sort, lexicographic form: sorting a list whose
indices strictly increase yields a list sorted for "descending key, ties by
ascending index". -/
theorem pairwise_lex_insertionSort {α : Type} [LinearOrder α] {β : Type}
    (key : β → α) (idx : β → ℕ) (l : List β)
    (h : l.Pairwise (fun a b => idx a < idx b)) :
    (l.insertionSort (keyDesc key)).Pairwise (lexDesc key idx) := by
  induction l with
  | nil => simp
  | cons a t ih =>
    rw [List.insertionSort]
    refine pairwise_lex_orderedInsert key idx a _
      (ih (List.pairwise_cons.1 h).2)
      (sorted_insertionSort_keyDesc key t)
      (fun b hb => (List.pairwise_cons.1 h).1 b ((List.mem_insertionSort _).1 hb))

/-! ### Data model of the hybrid-search edge function (src/unnamed/part_003) -/

/-- C7: for every request the returned VectorResults list is sorted with
vectorScore non-increasing, contains at most `topK` entries, and is stable:
for each score value `s`, the results with score `s` form an initial
segment of the score-`s` entries of the unsorted node order (so equal
scores preserve original node order). -/
theorem C7_vector_ranking_sorted {α : Type} [LinearOrderedField α]
    (score : NodeRecord α → α) (nodes : List (NodeRecord α)) (topK : ℕ) :
    (vectorRank score nodes topK).Sorted (keyDesc VectorResult.vectorScore)
    ∧ (vectorRank score nodes topK).length ≤ topK
    ∧ ∀ s : α, ∃ t,
        (vectorRank score nodes topK).filter (fun r => r.vectorScore = s) ++ t
          = (nodes.map (fun node =>
              ⟨node.id, node.node_type, node.content, score node⟩ : NodeRecord α → VectorResult α)).filter
              (fun r => r.vectorScore = s) := by
  refine ⟨?_, ?_, ?_⟩
  · exact List.Pairwise.sublist (List.take_sublist _ _)
      (sorted_insertionSort_keyDesc VectorResult.vectorScore _)
  · rw [vectorRank, List.length_take]
    exact min_le_left _ _
  · intro s
    obtain ⟨t, ht⟩ := filter_take_append (fun r : VectorResult α => decide (r.vectorScore = s))
      ((nodes.map (fun node =>
        ⟨node.id, node.node_type, node.content, score node⟩ : NodeRecord α → VectorResult α)).insertionSort
        (keyDesc VectorResult.vectorScore)) topK
    exact ⟨t, by rw [vectorRank, ht, filter_insertionSort_key]⟩


theorem le_foldl_max {γ : Type} [LinearOrder γ] :
    ∀ (l : List γ) (a : γ), a ≤ l.foldl max a := by
  intro l
  induction l with
  | nil => intro a; exact le_refl a
  | cons b t ih =>
    intro a
    rw [List.foldl_cons]
    exact le_trans (le_max_left a b) (ih (max a b))

theorem foldl_max_ub {γ : Type} [LinearOrder γ] :
    ∀ (l : List γ) (a : γ), ∀ w ∈ l, w ≤ l.foldl max a := by
  intro l
  induction l with
  | nil => intro a w hw; simp at hw
  | cons b t ih =>
    intro a w hw
    rw [List.foldl_cons]
    rcases List.mem_cons.1 hw with hw | hw
    · subst hw; exact le_trans (le_max_right a w) (le_foldl_max t (max a w))
    · exact ih (max a b) w hw

theorem foldl_max_mem {γ : Type} [LinearOrder γ] :
    ∀ (l : List γ) (a : γ), l.foldl max a = a ∨ l.foldl max a ∈ l := by
  intro l
  induction l with
  | nil => intro a; exact Or.inl rfl
  | cons b t ih =>
    intro a
    rw [List.foldl_cons]
    rcases ih (max a b) with h | h
    · rcases max_choice a b with hm | hm
      · exact Or.inl (by rw [h, hm])
      · exact Or.inr (by rw [h, hm]; exact List.mem_cons_self b t)
    · exact Or.inr (List.mem_cons_of_mem b h)

theorem find?_map_nodeId {α : Type} [LinearOrderedField α]
    (f : CombinedResult α → CombinedResult α) (hf : ∀ x, (f x).nodeId = x.nodeId)
    (m : List (CombinedResult α)) (y : List Char) :
    (m.map f).find? (fun c => c.nodeId = y) = (m.find? (fun c => c.nodeId = y)).map f := by
  rw [List.find?_map]
  have hp : ((fun c : CombinedResult α => decide (c.nodeId = y)) ∘ f)
      = (fun c : CombinedResult α => decide (c.nodeId = y)) := by
    funext x
    simp [Function.comp, hf]
  rw [hp]

/-- Folding graph results over a map that already has an entry `c` at key
`x`: the entry's graph score becomes the max-fold of the contributing edge
weights over its previous score, and its connection count grows by the
number of contributing edges. -/
theorem foldl_mergeGraph_find_some {α : Type} [LinearOrderedField α]
    (find : List Char → Option (NodeRecord α)) :
    ∀ (gr : List (GraphResult α)) (m : List (CombinedResult α)) (x : List Char)
      (c : CombinedResult α),
      m.find? (fun c' => c'.nodeId = x) = some c →
      (gr.foldl (mergeGraph find) m).find? (fun c' => c'.nodeId = x)
        = some { c with
            graphScore := ((gr.filter (fun g => g.nodeId = x)).map
              GraphResult.graphScore).foldl max c.graphScore,
            connections := c.connections + (gr.filter (fun g => g.nodeId = x)).length } := by
  intro gr
  induction gr with
  | nil =>
    intro m x c hm
    rw [List.foldl_nil, List.filter_nil, hm]
    simp
  | cons g gr ih =>
    intro m x c hm
    have hc : c.nodeId = x := by simpa using List.find?_some hm
    rw [List.foldl_cons]
    by_cases hgx : g.nodeId = x
    · subst hgx
      have hmg : mergeGraph find m g
          = m.map (fun y =>
              if y.nodeId = g.nodeId then
                { y with graphScore := max y.graphScore g.graphScore,
                         connections := y.connections + 1 }
              else y) := by
        rw [mergeGraph, hm]
      have hupd : ∀ y : CombinedResult α,
          ((fun y : CombinedResult α =>
            if y.nodeId = g.nodeId then
              { y with graphScore := max y.graphScore g.graphScore,
                       connections := y.connections + 1 }
            else y) y).nodeId = y.nodeId := by
        intro y
        by_cases h : y.nodeId = g.nodeId <;> simp [h]
      have hfind : (mergeGraph find m g).find? (fun c' => c'.nodeId = g.nodeId)
          = some { c with graphScore := max c.graphScore g.graphScore,
                          connections := c.connections + 1 } := by
        rw [hmg, find?_map_nodeId _ hupd, hm, Option.map_some']
        rw [if_pos hc]
      rw [ih _ _ _ hfind]
      rw [List.filter_cons, decide_eq_true rfl]
      simp only [if_true, List.map_cons, List.foldl_cons, List.length_cons,
        Option.some.injEq, CombinedResult.mk.injEq, true_and, and_true]
      omega
    · have hfind : (mergeGraph find m g).find? (fun c' => c'.nodeId = x)
          = some c := by
        rw [mergeGraph]
        cases hm2 : m.find? (fun c' => c'.nodeId = g.nodeId) with
        | some d =>
          have hupd : ∀ y : CombinedResult α,
              ((fun y : CombinedResult α =>
                if y.nodeId = g.nodeId then
                  { y with graphScore := max y.graphScore g.graphScore,
                           connections := y.connections + 1 }
                else y) y).nodeId = y.nodeId := by
            intro y
            by_cases h : y.nodeId = g.nodeId <;> simp [h]
          rw [find?_map_nodeId _ hupd, hm, Option.map_some']
          rw [if_neg (by rw [hc]; exact fun h => hgx h.symm)]
        | none =>
          rw [List.find?_append, hm]
          rfl
      rw [ih _ _ _ hfind]
      rw [List.filter_cons, decide_eq_false hgx]
      simp

/-- Folding graph results over a map with no entry at key `x`: if no edge
contributes nothing happens; otherwise a fresh entry is created from the
first contributing edge (vectorScore 0, graphScore that edge's weight) and
updated by the rest (max accumulation, one connection per edge). -/
theorem foldl_mergeGraph_find_none {α : Type} [LinearOrderedField α]
    (find : List Char → Option (NodeRecord α)) :
    ∀ (gr : List (GraphResult α)) (m : List (CombinedResult α)) (x : List Char),
      m.find? (fun c' => c'.nodeId = x) = none →
      (gr.foldl (mergeGraph find) m).find? (fun c' => c'.nodeId = x)
        = match gr.filter (fun g => g.nodeId = x) with
          | [] => none
          | g0 :: rest => some ⟨x, (find x).map NodeRecord.node_type,
              (find x).map NodeRecord.content, 0,
              (rest.map GraphResult.graphScore).foldl max g0.graphScore,
              1 + rest.length⟩ := by
  intro gr
  induction gr with
  | nil =>
    intro m x hm
    rw [List.foldl_nil, List.filter_nil, hm]
  | cons g gr ih =>
    intro m x hm
    rw [List.foldl_cons]
    by_cases hgx : g.nodeId = x
    · subst hgx
      have hmg : mergeGraph find m g
          = m ++ [⟨g.nodeId, (find g.nodeId).map NodeRecord.node_type,
              (find g.nodeId).map NodeRecord.content, 0, g.graphScore, 1⟩] := by
        rw [mergeGraph, hm]
      have hfind : (mergeGraph find m g).find? (fun c' => c'.nodeId = g.nodeId)
          = some ⟨g.nodeId, (find g.nodeId).map NodeRecord.node_type,
              (find g.nodeId).map NodeRecord.content, 0, g.graphScore, 1⟩ := by
        rw [hmg, List.find?_append, hm]
        simp
      rw [foldl_mergeGraph_find_some find gr _ _ _ hfind]
      rw [List.filter_cons, decide_eq_true rfl]
      simp
    · have hfind : (mergeGraph find m g).find? (fun c' => c'.nodeId = x) = none := by
        rw [mergeGraph]
        cases hm2 : m.find? (fun c' => c'.nodeId = g.nodeId) with
        | some d =>
          have hupd : ∀ y : CombinedResult α,
              ((fun y : CombinedResult α =>
                if y.nodeId = g.nodeId then
                  { y with graphScore := max y.graphScore g.graphScore,
                           connections := y.connections + 1 }
                else y) y).nodeId = y.nodeId := by
            intro y
            by_cases h : y.nodeId = g.nodeId <;> simp [h]
          rw [find?_map_nodeId _ hupd, hm, Option.map_none']
        | none =>
          rw [List.find?_append, hm]
          simp [hgx]
      rw [ih _ _ hfind]
      rw [List.filter_cons, decide_eq_false hgx]
      simp

/-- Inserting the vector results into the empty map appends them in order
(their ids are distinct), as `combined.set(v.nodeId, …)` does. -/
theorem foldl_mapSet_fresh {α : Type} [LinearOrderedField α] :
    ∀ (vr : List (VectorResult α)) (m : List (CombinedResult α)),
      (∀ v ∈ vr, m.find? (fun c => c.nodeId = v.nodeId) = none) →
      (vr.map VectorResult.nodeId).Nodup →
      vr.foldl (fun acc v => mapSet acc (vectorSeed v)) m = m ++ vr.map vectorSeed := by
  intro vr
  induction vr with
  | nil => intro m _ _; simp
  | cons v rest ih =>
    intro m hfresh hnd
    rw [List.foldl_cons]
    have hset : mapSet m (vectorSeed v) = m ++ [vectorSeed v] := by
      rw [mapSet, if_neg]
      intro hs
      simp only [vectorSeed] at hs
      rw [hfresh v (List.mem_cons_self v rest)] at hs
      simp at hs
    rw [hset]
    rw [ih (m ++ [vectorSeed v]) ?_ ?_]
    · rw [List.map_cons, List.append_assoc]
      rfl
    · intro w hw
      rw [List.find?_append, hfresh w (List.mem_cons_of_mem v hw)]
      have hne : v.nodeId ≠ w.nodeId := by
        intro he
        have : w.nodeId ∈ rest.map VectorResult.nodeId :=
          List.mem_map_of_mem VectorResult.nodeId hw
        rw [← he] at this
        exact (List.nodup_cons.1 (by simpa using hnd)).1 this
      simp [vectorSeed, hne]
    · exact (List.nodup_cons.1 (by simpa using hnd)).2

theorem find?_map_vectorSeed {α : Type} [LinearOrderedField α]
    (vr : List (VectorResult α)) (y : List Char) :
    ((vr.map vectorSeed).find? (fun c => c.nodeId = y))
      = (vr.find? (fun v => v.nodeId = y)).map vectorSeed := by
  rw [List.find?_map]
  have hp : ((fun c : CombinedResult α => decide (c.nodeId = y)) ∘ vectorSeed)
      = (fun v : VectorResult α => decide (v.nodeId = y)) := by
    funext v
    simp [Function.comp, vectorSeed]
  rw [hp]

theorem find?_nodeId_of_mem {α : Type} [LinearOrderedField α] :
    ∀ (vr : List (VectorResult α)), (vr.map VectorResult.nodeId).Nodup →
      ∀ v ∈ vr, vr.find? (fun w => w.nodeId = v.nodeId) = some v := by
  intro vr
  induction vr with
  | nil => intro _ v hv; simp at hv
  | cons w rest ih =>
    intro hnd v hv
    rcases List.mem_cons.1 hv with hv | hv
    · subst hv
      rw [List.find?_cons, decide_eq_true rfl]
    · have hne : w.nodeId ≠ v.nodeId := by
        intro he
        have : v.nodeId ∈ rest.map VectorResult.nodeId :=
          List.mem_map_of_mem VectorResult.nodeId hv
        rw [← he] at this
        exact (List.nodup_cons.1 (by simpa using hnd)).1 this
      rw [List.find?_cons, decide_eq_false hne]
      exact ih (List.nodup_cons.1 (by simpa using hnd)).2 v hv

/-- C1 counterexample: a node present in both result sets whose only
contributing edge has negative weight.  The merge accumulator starts from
the vector entry's default `graphScore = 0`, so `Math.max` clamps the
merged graphScore at `0` instead of the claimed maximum edge weight `-1`.
(Negative weights are reachable: edge weights are cosine similarities,
which range over `[-1, 1]`.) -/
theorem C1_counterexample :
    (((mergeResults (fun _ => none)
          [⟨['a'], ['t'], ['c'], (1 : ℚ)⟩]
          [⟨['a'], ['s'], (-1 : ℚ), 1, [], [], none, [], none, none⟩]).find?
        (fun c => c.nodeId = ['a'])).map CombinedResult.graphScore = some 0)
    ∧ (([⟨['a'], ['s'], (-1 : ℚ), 1, [], [], none, [], none, none⟩].filter
          (fun g => GraphResult.nodeId g = ['a'])).map GraphResult.graphScore
        = [(-1 : ℚ)])
    ∧ (0 : ℚ) ≠ (-1 : ℚ) := by
  refine ⟨by decide, by decide, by norm_num⟩

/-- C1 (amended): in the merged result set, a node occurring among the
vector results keeps its vectorScore, gets `graphScore = max(0, maximum
contributing edge weight)` — the max-fold of the contributing edge weights
over the initial `0`, *not* their sum, and clamped below by `0` (this
clamping is the one correction to the claim) — and `connections` equal to
the number of contributing edges (`0` for a vector-only node, giving
`graphScore = 0`); a graph-only node has `vectorScore = 0`, graphScore
equal to the true maximum contributing edge weight, and one connection per
contributing edge; and every emitted HybridResult satisfies
`hybridScore = vectorScore·vectorWeight + graphScore·graphWeight` exactly. -/
theorem C1_fusion_amended {α : Type} [LinearOrderedField α]
    (find : List Char → Option (NodeRecord α)) (vr : List (VectorResult α))
    (gr : List (GraphResult α)) (hnd : (vr.map VectorResult.nodeId).Nodup) :
    (∀ v ∈ vr, (mergeResults find vr gr).find? (fun c => c.nodeId = v.nodeId)
        = some ⟨v.nodeId, some v.nodeType, some v.content, v.vectorScore,
            ((gr.filter (fun g => g.nodeId = v.nodeId)).map
              GraphResult.graphScore).foldl max 0,
            (gr.filter (fun g => g.nodeId = v.nodeId)).length⟩)
    ∧ (∀ g ∈ gr, g.nodeId ∉ vr.map VectorResult.nodeId →
        ∃ c, (mergeResults find vr gr).find? (fun c' => c'.nodeId = g.nodeId) = some c
          ∧ c.vectorScore = 0
          ∧ c.graphScore ∈ (gr.filter (fun g' => g'.nodeId = g.nodeId)).map
              GraphResult.graphScore
          ∧ (∀ w ∈ (gr.filter (fun g' => g'.nodeId = g.nodeId)).map
              GraphResult.graphScore, w ≤ c.graphScore)
          ∧ c.connections = (gr.filter (fun g' => g'.nodeId = g.nodeId)).length)
    ∧ (∀ vectorWeight graphWeight topK,
        ∀ h ∈ hybridRank find vr gr vectorWeight graphWeight topK,
          h.hybridScore = h.vectorScore * vectorWeight + h.graphScore * graphWeight) := by
  have hinit : vr.foldl (fun acc v => mapSet acc (vectorSeed v)) []
      = vr.map vectorSeed :=
    foldl_mapSet_fresh vr [] (fun v _ => rfl) hnd
  refine ⟨?_, ?_, ?_⟩
  · intro v hv
    have hseed : (vr.map vectorSeed).find? (fun c => c.nodeId = v.nodeId)
        = some (vectorSeed v) := by
      rw [find?_map_vectorSeed, find?_nodeId_of_mem vr hnd v hv]
      rfl
    rw [mergeResults, hinit]
    rw [foldl_mergeGraph_find_some find gr _ _ _ hseed]
    simp [vectorSeed]
  · intro g hg hnotin
    have hseed : (vr.map vectorSeed).find? (fun c => c.nodeId = g.nodeId) = none := by
      rw [find?_map_vectorSeed]
      have : vr.find? (fun v => v.nodeId = g.nodeId) = none := by
        rw [List.find?_eq_none]
        intro v hv hveq
        exact hnotin (by
          have := of_decide_eq_true hveq
          rw [← this]
          exact List.mem_map_of_mem VectorResult.nodeId hv)
      rw [this]
      rfl
    have hne : (gr.filter (fun g' => g'.nodeId = g.nodeId)) ≠ [] := by
      intro he
      have : g ∈ gr.filter (fun g' => g'.nodeId = g.nodeId) :=
        List.mem_filter.2 ⟨hg, by simp⟩
      rw [he] at this
      simp at this
    rw [mergeResults, hinit]
    rw [foldl_mergeGraph_find_none find gr _ _ hseed]
    rcases hfil : gr.filter (fun g' => g'.nodeId = g.nodeId) with _ | ⟨g0, rest⟩
    · exact absurd hfil hne
    · rw [hfil]
      refine ⟨_, rfl, rfl, ?_, ?_, ?_⟩
      · rcases foldl_max_mem (rest.map GraphResult.graphScore) g0.graphScore with h | h
        · rw [h, List.map_cons]
          exact List.mem_cons_self _ _
        · rw [List.map_cons]
          exact List.mem_cons_of_mem _ h
      · intro w hw
        rw [List.map_cons] at hw
        rcases List.mem_cons.1 hw with hw | hw
        · subst hw; exact le_foldl_max _ _
        · exact foldl_max_ub _ _ w hw
      · simp only [List.length_cons]
        omega
  · intro vw gw topK h hh
    rw [hybridRank] at hh
    have hh2 := (List.mem_insertionSort (keyDesc HybridResult.hybridScore)).1
      (List.mem_of_mem_take hh)
    obtain ⟨r, _, hr⟩ := List.mem_map.1 hh2
    rw [← hr]

/-- Witness for the amended C1 at a concrete instance: one vector result
for node "a" and two contributing edges (weights 2 and -1), the second
reaching a graph-only node "b". -/
theorem C1_witness :
    (([⟨['a'], ['t'], ['c'], (1 : ℚ)⟩] : List (VectorResult ℚ)).map
        VectorResult.nodeId).Nodup
    ∧ ((∀ v ∈ ([⟨['a'], ['t'], ['c'], (1 : ℚ)⟩] : List (VectorResult ℚ)),
        (mergeResults (fun _ => none)
            ([⟨['a'], ['t'], ['c'], (1 : ℚ)⟩] : List (VectorResult ℚ))
            ([⟨['a'], ['s'], (2 : ℚ), 1, [], [], none, [], none, none⟩,
              ⟨['b'], ['a'], (-1 : ℚ), 1, [], [], none, [], none, none⟩]
              : List (GraphResult ℚ))).find? (fun c => c.nodeId = v.nodeId)
          = some ⟨v.nodeId, some v.nodeType, some v.content, v.vectorScore,
              ((([⟨['a'], ['s'], (2 : ℚ), 1, [], [], none, [], none, none⟩,
                  ⟨['b'], ['a'], (-1 : ℚ), 1, [], [], none, [], none, none⟩]
                  : List (GraphResult ℚ)).filter
                  (fun g => g.nodeId = v.nodeId)).map GraphResult.graphScore).foldl max 0,
              (([⟨['a'], ['s'], (2 : ℚ), 1, [], [], none, [], none, none⟩,
                 ⟨['b'], ['a'], (-1 : ℚ), 1, [], [], none, [], none, none⟩]
                  : List (GraphResult ℚ)).filter
                  (fun g => g.nodeId = v.nodeId)).length⟩)
      ∧ (∀ g ∈ ([⟨['a'], ['s'], (2 : ℚ), 1, [], [], none, [], none, none⟩,
              ⟨['b'], ['a'], (-1 : ℚ), 1, [], [], none, [], none, none⟩]
              : List (GraphResult ℚ)),
          g.nodeId ∉ ([⟨['a'], ['t'], ['c'], (1 : ℚ)⟩] : List (VectorResult ℚ)).map
              VectorResult.nodeId →
          ∃ c, (mergeResults (fun _ => none)
              ([⟨['a'], ['t'], ['c'], (1 : ℚ)⟩] : List (VectorResult ℚ))
              ([⟨['a'], ['s'], (2 : ℚ), 1, [], [], none, [], none, none⟩,
                ⟨['b'], ['a'], (-1 : ℚ), 1, [], [], none, [], none, none⟩]
                : List (GraphResult ℚ))).find?
              (fun c' => c'.nodeId = g.nodeId) = some c
            ∧ c.vectorScore = 0
            ∧ c.graphScore ∈ ((([⟨['a'], ['s'], (2 : ℚ), 1, [], [], none, [], none, none⟩,
                ⟨['b'], ['a'], (-1 : ℚ), 1, [], [], none, [], none, none⟩]
                : List (GraphResult ℚ)).filter
                  (fun g' => g'.nodeId = g.nodeId)).map GraphResult.graphScore)
            ∧ (∀ w ∈ (([⟨['a'], ['s'], (2 : ℚ), 1, [], [], none, [], none, none⟩,
                ⟨['b'], ['a'], (-1 : ℚ), 1, [], [], none, [], none, none⟩]
                : List (GraphResult ℚ)).filter
                  (fun g' => g'.nodeId = g.nodeId)).map GraphResult.graphScore,
                w ≤ c.graphScore)
            ∧ c.connections = (([⟨['a'], ['s'], (2 : ℚ), 1, [], [], none, [], none, none⟩,
                ⟨['b'], ['a'], (-1 : ℚ), 1, [], [], none, [], none, none⟩]
                : List (GraphResult ℚ)).filter
                  (fun g' => g'.nodeId = g.nodeId)).length)
      ∧ (∀ vectorWeight graphWeight topK,
          ∀ h ∈ hybridRank (fun _ => none)
              ([⟨['a'], ['t'], ['c'], (1 : ℚ)⟩] : List (VectorResult ℚ))
              ([⟨['a'], ['s'], (2 : ℚ), 1, [], [], none, [], none, none⟩,
                ⟨['b'], ['a'], (-1 : ℚ), 1, [], [], none, [], none, none⟩]
                : List (GraphResult ℚ))
              vectorWeight graphWeight topK,
            h.hybridScore = h.vectorScore * vectorWeight + h.graphScore * graphWeight)) :=
  ⟨by decide,
   C1_fusion_amended (fun _ => none)
     ([⟨['a'], ['t'], ['c'], (1 : ℚ)⟩] : List (VectorResult ℚ))
     ([⟨['a'], ['s'], (2 : ℚ), 1, [], [], none, [], none, none⟩,
       ⟨['b'], ['a'], (-1 : ℚ), 1, [], [], none, [], none, none⟩]
       : List (GraphResult ℚ))
     (by decide)⟩

/-- When every graph result's node already has an entry in the map, the
graph-merge pass only updates entries in place: the key sequence and the
vector scores are unchanged. -/
theorem foldl_mergeGraph_covered {α : Type} [LinearOrderedField α]
    (find : List Char → Option (NodeRecord α)) :
    ∀ (gr : List (GraphResult α)) (m : List (CombinedResult α)),
      (∀ g ∈ gr, ((m.find? (fun c => c.nodeId = g.nodeId)).isSome = true)) →
      (gr.foldl (mergeGraph find) m).map CombinedResult.nodeId
          = m.map CombinedResult.nodeId
      ∧ (gr.foldl (mergeGraph find) m).map CombinedResult.vectorScore
          = m.map CombinedResult.vectorScore := by
  intro gr
  induction gr with
  | nil => intro m _; exact ⟨rfl, rfl⟩
  | cons g gr ih =>
    intro m hcov
    rw [List.foldl_cons]
    obtain ⟨d, hd⟩ := Option.isSome_iff_exists.1 (hcov g (List.mem_cons_self g gr))
    have hmg : mergeGraph find m g
        = m.map (fun y =>
            if y.nodeId = g.nodeId then
              { y with graphScore := max y.graphScore g.graphScore,
                       connections := y.connections + 1 }
            else y) := by
      rw [mergeGraph, hd]
    have hupd : ∀ y : CombinedResult α,
        ((fun y : CombinedResult α =>
          if y.nodeId = g.nodeId then
            { y with graphScore := max y.graphScore g.graphScore,
                     connections := y.connections + 1 }
          else y) y).nodeId = y.nodeId := by
      intro y
      by_cases h : y.nodeId = g.nodeId <;> simp [h]
    have hcov' : ∀ g' ∈ gr,
        (((mergeGraph find m g).find? (fun c => c.nodeId = g'.nodeId)).isSome = true) := by
      intro g' hg'
      rw [hmg, find?_map_nodeId _ hupd, Option.isSome_map']
      exact hcov g' (List.mem_cons_of_mem g hg')
    obtain ⟨h1, h2⟩ := ih (mergeGraph find m g) hcov'
    constructor
    · rw [h1, hmg, List.map_map]
      congr 1
      funext y
      by_cases h : y.nodeId = g.nodeId <;> simp [Function.comp, h]
    · rw [h2, hmg, List.map_map]
      congr 1
      funext y
      by_cases h : y.nodeId = g.nodeId <;> simp [Function.comp, h]

/-- C8 counterexample: with vectorWeight 1 and graphWeight 0 against a
non-empty corpus, one outgoing edge reaching a node outside the vector
results makes hybridResults contain a node vectorResults does not, so the
sequences of node ids differ. -/
theorem C8_counterexample :
    (hybridRank (fun _ => none)
        ([⟨['a'], ['t'], ['c'], (1 : ℚ)⟩] : List (VectorResult ℚ))
        ([⟨['b'], ['a'], (1 : ℚ), 1, [], [], none, [], none, none⟩]
          : List (GraphResult ℚ))
        1 0 2).map (fun h => h.nodeId)
      ≠ ([⟨['a'], ['t'], ['c'], (1 : ℚ)⟩] : List (VectorResult ℚ)).map
          VectorResult.nodeId := by
  intro he
  have hlen := congrArg List.length he
  rw [List.length_map, List.length_map, hybridRank, List.length_take,
    List.length_insertionSort, List.length_map] at hlen
  have hm : (mergeResults (fun _ => none)
      ([⟨['a'], ['t'], ['c'], (1 : ℚ)⟩] : List (VectorResult ℚ))
      ([⟨['b'], ['a'], (1 : ℚ), 1, [], [], none, [], none, none⟩]
        : List (GraphResult ℚ))).length = 2 := rfl
  rw [hm] at hlen
  norm_num at hlen

/-- C8 (amended): with vectorWeight 1 and graphWeight 0, *provided every
node reached by the graph expansion already occurs among the vector
results* (no graph-only node enters the merge), the nodes of hybridResults
are exactly the nodes of vectorResults in the same order, each with
hybridScore equal to its vectorScore and graphScore contributing 0.
Without that proviso the claim fails: a graph-only node (hybridScore 0)
enters hybridResults and can precede vector nodes, as the counterexample
shows. -/
theorem C8_hybrid_order_amended {α : Type} [LinearOrderedField α]
    (score : NodeRecord α → α) (nodes : List (NodeRecord α)) (topK : ℕ)
    (find : List Char → Option (NodeRecord α)) (gr : List (GraphResult α))
    (hnd : (nodes.map NodeRecord.id).Nodup)
    (hsub : ∀ g ∈ gr,
      g.nodeId ∈ (vectorRank score nodes topK).map VectorResult.nodeId) :
    (hybridRank find (vectorRank score nodes topK) gr 1 0 topK).map
        (fun h => h.nodeId)
      = (vectorRank score nodes topK).map VectorResult.nodeId := by
  have hvnd : ((vectorRank score nodes topK).map VectorResult.nodeId).Nodup := by
    rw [vectorRank]
    refine List.Nodup.sublist
      (List.Sublist.map VectorResult.nodeId (List.take_sublist _ _)) ?_
    have hperm := (List.perm_insertionSort (keyDesc VectorResult.vectorScore)
      (nodes.map (fun node =>
        ⟨node.id, node.node_type, node.content, score node⟩ : NodeRecord α → VectorResult α))).map
      VectorResult.nodeId
    refine (List.Perm.nodup_iff hperm).2 ?_
    rw [List.map_map]
    exact hnd
  have hinit : (vectorRank score nodes topK).foldl
      (fun acc v => mapSet acc (vectorSeed v)) []
      = (vectorRank score nodes topK).map vectorSeed :=
    foldl_mapSet_fresh _ [] (fun v _ => rfl) hvnd
  have hcov : ∀ g ∈ gr,
      ((((vectorRank score nodes topK).map vectorSeed).find?
        (fun c => c.nodeId = g.nodeId)).isSome = true) := by
    intro g hg
    rw [find?_map_vectorSeed, Option.isSome_map']
    rw [List.find?_isSome]
    obtain ⟨v, hv, hveq⟩ := List.mem_map.1 (hsub g hg)
    exact ⟨v, hv, by simp [hveq]⟩
  obtain ⟨hids, hvs⟩ := foldl_mergeGraph_covered find gr
    ((vectorRank score nodes topK).map vectorSeed) hcov
  have hseedids : ((vectorRank score nodes topK).map vectorSeed).map
      CombinedResult.nodeId = (vectorRank score nodes topK).map VectorResult.nodeId := by
    rw [List.map_map]; rfl
  have hseedvs : ((vectorRank score nodes topK).map vectorSeed).map
      CombinedResult.vectorScore
      = (vectorRank score nodes topK).map VectorResult.vectorScore := by
    rw [List.map_map]; rfl
  have hsid : ((gr.foldl (mergeGraph find)
        ((vectorRank score nodes topK).map vectorSeed)).map
      (fun result => (⟨result, result.vectorScore * 1 + result.graphScore * 0⟩
        : HybridResult α))).map (fun h => h.nodeId)
      = (vectorRank score nodes topK).map VectorResult.nodeId := by
    rw [List.map_map]
    have hcomp : ((fun h : HybridResult α => h.nodeId)
        ∘ (fun result : CombinedResult α =>
          (⟨result, result.vectorScore * 1 + result.graphScore * 0⟩ : HybridResult α)))
        = CombinedResult.nodeId := rfl
    rw [hcomp, hids, hseedids]
  have hssc : ((gr.foldl (mergeGraph find)
        ((vectorRank score nodes topK).map vectorSeed)).map
      (fun result => (⟨result, result.vectorScore * 1 + result.graphScore * 0⟩
        : HybridResult α))).map HybridResult.hybridScore
      = (vectorRank score nodes topK).map VectorResult.vectorScore := by
    rw [List.map_map]
    have hcomp : (HybridResult.hybridScore
        ∘ (fun result : CombinedResult α =>
          (⟨result, result.vectorScore * 1 + result.graphScore * 0⟩ : HybridResult α)))
        = CombinedResult.vectorScore := by
      funext r
      simp [Function.comp]
    rw [hcomp, hvs, hseedvs]
  have hsorted_vr : (vectorRank score nodes topK).Sorted
      (keyDesc VectorResult.vectorScore) :=
    List.Pairwise.sublist (List.take_sublist _ _)
      (sorted_insertionSort_keyDesc VectorResult.vectorScore _)
  have hsorted : ((gr.foldl (mergeGraph find)
        ((vectorRank score nodes topK).map vectorSeed)).map
      (fun result => (⟨result, result.vectorScore * 1 + result.graphScore * 0⟩
        : HybridResult α))).Sorted (keyDesc HybridResult.hybridScore) := by
    have hp1 : (((vectorRank score nodes topK)).map VectorResult.vectorScore).Pairwise
        (fun a b => b ≤ a) := List.pairwise_map.2 hsorted_vr
    have hp2 : (((gr.foldl (mergeGraph find)
          ((vectorRank score nodes topK).map vectorSeed)).map
        (fun result => (⟨result, result.vectorScore * 1 + result.graphScore * 0⟩
          : HybridResult α))).map HybridResult.hybridScore).Pairwise
        (fun a b => b ≤ a) := by
      rw [hssc]
      exact hp1
    have hp3 := List.pairwise_map.1 hp2
    exact hp3
  have hsort := List.Sorted.insertionSort_eq hsorted
  have hlenM : (gr.foldl (mergeGraph find)
      ((vectorRank score nodes topK).map vectorSeed)).length
      = (vectorRank score nodes topK).length := by
    have h := congrArg List.length hids
    rw [List.length_map, List.length_map] at h
    rw [h, List.length_map]
  have hlen : ((gr.foldl (mergeGraph find)
        ((vectorRank score nodes topK).map vectorSeed)).map
      (fun result => (⟨result, result.vectorScore * 1 + result.graphScore * 0⟩
        : HybridResult α))).length ≤ topK := by
    rw [List.length_map, hlenM, vectorRank, List.length_take]
    exact min_le_left _ _
  rw [hybridRank, mergeResults, hinit, hsort, List.take_of_length_le hlen, hsid]

/-- Witness for the amended C8 at a concrete instance (one node, empty
graph expansion). -/
theorem C8_witness :
    (([⟨['n'], ['f'], ['t'], ['c'], [], none⟩] : List (NodeRecord ℚ)).map
        NodeRecord.id).Nodup
    ∧ (∀ g ∈ ([] : List (GraphResult ℚ)),
        g.nodeId ∈ (vectorRank (fun _ => (0 : ℚ))
          [⟨['n'], ['f'], ['t'], ['c'], [], none⟩] 1).map VectorResult.nodeId)
    ∧ (hybridRank (fun _ => none)
        (vectorRank (fun _ => (0 : ℚ)) [⟨['n'], ['f'], ['t'], ['c'], [], none⟩] 1)
        [] 1 0 1).map (fun h => h.nodeId)
      = (vectorRank (fun _ => (0 : ℚ))
          [⟨['n'], ['f'], ['t'], ['c'], [], none⟩] 1).map VectorResult.nodeId :=
  ⟨by decide, by simp,
   C8_hybrid_order_amended (fun _ => (0 : ℚ))
     [⟨['n'], ['f'], ['t'], ['c'], [], none⟩] 1 (fun _ => none) []
     (by decide) (by simp)⟩

/-- C10: ingesting a file whose downloaded text is the empty string
creates zero nodes and zero edges (the chunker returns no chunks, so no
node insert and an empty edge batch), still sets the file's status to
"completed", and returns `{success: true, nodesCreated: 0,
edgesCreated: 0}` rather than an error. -/
theorem C10_empty_text_ingest {α : Type} [LinearOrderedField α] (sq : α → α)
    (idOf : ℕ → List Char) :
    processFile sq idOf [] = ⟨true, 0, 0, ("completed").data⟩ :=
  rfl

/-- C3: a hybrid-search request whose file scope contains zero nodes fails
with the error message "No nodes found for this file"; the result is an
`Except.error`, so the vector-ranking, graph-expansion, fusion and
visualization steps produce nothing and no partial results are
returned. -/
theorem C3_empty_corpus {α : Type} [LinearOrderedField α] (sq : α → α)
    (query fileId : List Char) (vectorWeight graphWeight : α) (topK : ℕ)
    (nodesTable : List (NodeRecord α)) (edgesTable : List (EdgeRecord α))
    (hempty : nodesTable.filter (fun node => node.file_id = fileId) = []) :
    hybridSearch sq query fileId vectorWeight graphWeight topK nodesTable
      edgesTable = Except.error ("No nodes found for this file").data := by
  rw [hybridSearch]
  simp only [hempty, List.length_nil]
  rfl

/-- Witness for C3: an empty nodes table. -/
theorem C3_witness :
    (([] : List (NodeRecord ℚ)).filter (fun node => node.file_id = ['f']) = [])
    ∧ hybridSearch (fun x => x) ['q'] ['f'] 1 0 1 ([] : List (NodeRecord ℚ)) []
      = Except.error ("No nodes found for this file").data :=
  ⟨rfl, C3_empty_corpus (fun x => x) ['q'] ['f'] 1 0 1 [] [] rfl⟩

theorem joinSpace_cons_ne_nil (w : List Char) (ws : List (List Char))
    (hw : w ≠ []) : joinSpace (w :: ws) ≠ [] := by
  rw [joinSpace]
  cases ws with
  | nil => simpa [List.intercalate] using hw
  | cons b t =>
    rw [List.intercalate, List.intersperse_cons₂, List.flatten_cons]
    simp only [ne_eq, List.append_eq_nil]
    intro h
    exact hw h.1

/-- C9 counterexample: the claim's literal reading ("first non-empty
string wins", value returned as is) diverges from the code on metadata
`{label: " Foo "}` — the code skips/trims by `value.trim()`, returning
"Foo", while the literal claim yields " Foo ". -/
theorem C9_counterexample :
    deriveNodeLabel (some (⟨['n'], ['f'], ['t'], ('h' :: ['i']), [],
        some [(("label").data, MetaVal.str (" Foo ").data)]⟩ : NodeRecord ℚ))
      = ("Foo").data
    ∧ deriveLabelClaim (⟨['n'], ['f'], ['t'], ('h' :: ['i']), [],
        some [(("label").data, MetaVal.str (" Foo ").data)]⟩ : NodeRecord ℚ)
      = (" Foo ").data
    ∧ deriveNodeLabel (some (⟨['n'], ['f'], ['t'], ('h' :: ['i']), [],
        some [(("label").data, MetaVal.str (" Foo ").data)]⟩ : NodeRecord ℚ))
      ≠ deriveLabelClaim (⟨['n'], ['f'], ['t'], ('h' :: ['i']), [],
        some [(("label").data, MetaVal.str (" Foo ").data)]⟩ : NodeRecord ℚ) := by
  refine ⟨by decide, by decide, by decide⟩

/-- C9 (amended): `deriveNodeLabel` resolves in the claimed strict priority
order with the trimming semantics made explicit: a metadata field counts
as non-empty when it contains a non-whitespace character, the winning
value is returned trimmed, and the 40-character truncation drops trailing
whitespace before the ellipsis (`deriveLabelAmended` spells this out
layer by layer).  In particular a node whose metadata field `label` holds
a string with non-empty trim always resolves to that trimmed string,
regardless of content — so `{label: "Foo"}` resolves to "Foo". -/
theorem C9_label_resolution_amended {α : Type} :
    (∀ node : NodeRecord α, deriveNodeLabel (some node) = deriveLabelAmended node)
    ∧ (∀ (node : NodeRecord α) (meta : List (List Char × MetaVal)) (v : List Char),
        node.metadata = some meta →
        mLookup meta ("label").data = some (MetaVal.str v) → jsTrim v ≠ [] →
        deriveNodeLabel (some node) = jsTrim v) := by
  constructor
  · intro node
    have hcontent :
        (let cleanedContent := jsTrim (stripCrLf (collapseWs node.content))
        if cleanedContent ≠ [] then
          let words := (splitOnSpace cleanedContent).filter (fun w => w ≠ [])
          let snippet := joinSpace (words.take 3)
          if 40 < snippet.length then jsTrim (snippet.take 40) ++ ("...").data
          else if snippet ≠ [] then snippet else node.id
        else node.id)
        = (let words := (splitOnSpace (jsTrim (stripCrLf
            (collapseWs node.content)))).filter (fun w => w ≠ [])
          let snippet := joinSpace (words.take 3)
          if words = [] then node.id
          else if 40 < snippet.length then jsTrim (snippet.take 40) ++ ("...").data
          else snippet) := by
      by_cases hcl : jsTrim (stripCrLf (collapseWs node.content)) = []
      · rw [hcl]
        simp [splitOnSpace, splitOnSpaceAux]
      · simp only [hcl, ne_eq, not_false_eq_true, if_true]
        cases hw : (splitOnSpace (jsTrim (stripCrLf
            (collapseWs node.content)))).filter (fun w => w ≠ []) with
        | nil =>
          simp [joinSpace, List.intercalate]
        | cons w ws =>
          have hwne : w ≠ [] := by
            have : w ∈ (splitOnSpace (jsTrim (stripCrLf
                (collapseWs node.content)))).filter (fun w => w ≠ []) := by
              rw [hw]; exact List.mem_cons_self w ws
            simpa using (List.of_mem_filter this)
          by_cases hlen : 40 < (joinSpace (w :: ws.take 2)).length
          · simp [hlen]
          · have hsnip : joinSpace (w :: ws.take 2) ≠ [] :=
              joinSpace_cons_ne_nil w _ hwne
            simp [hlen, hsnip]
    cases hmeta : node.metadata with
    | none =>
      simp only [deriveNodeLabel, deriveLabelAmended, extractMetadataLabel, hmeta]
      exact hcontent
    | some meta =>
      simp only [deriveNodeLabel, deriveLabelAmended, extractMetadataLabel, hmeta]
      cases hf : [("label").data, ("title").data, ("name").data, ("keyword").data,
          ("heading").data, ("topic").data].findSome? (fun k =>
        match mLookup meta k with
        | some (.str v) => if jsTrim v ≠ [] then some (jsTrim v) else none
        | _ => none) with
      | some s => simp [hf]
      | none =>
        simp only [hf]
        cases hk : mLookup meta ("keywords").data with
        | none => simpa using hcontent
        | some kv =>
          cases kv with
          | str s => simpa [hk] using hcontent
          | other => simpa [hk] using hcontent
          | arr ks =>
            simp only [hk]
            cases hks : ks.findSome? (fun kv =>
              match kv with
              | MetaVal.str v => if jsTrim v ≠ [] then some (jsTrim v) else none
              | _ => none) with
            | some s => simp
            | none => simpa using hcontent
  · intro node meta v hmeta hlook htrim
    simp only [deriveNodeLabel, extractMetadataLabel, hmeta, List.findSome?_cons,
      hlook, htrim]
    simp [htrim]

/-- Witness for the amended C9: a node with metadata `{label: "Foo"}` and
unrelated content resolves to "Foo" by the second component of the
theorem. -/
theorem C9_witness :
    ((⟨['n'], ['f'], ['t'], ('h' :: ['i']), [],
        some [(("label").data, MetaVal.str ("Foo").data)]⟩ : NodeRecord ℚ).metadata
      = some [(("label").data, MetaVal.str ("Foo").data)])
    ∧ mLookup [(("label").data, MetaVal.str ("Foo").data)] ("label").data
      = some (MetaVal.str ("Foo").data)
    ∧ jsTrim ("Foo").data ≠ []
    ∧ deriveNodeLabel (some (⟨['n'], ['f'], ['t'], ('h' :: ['i']), [],
        some [(("label").data, MetaVal.str ("Foo").data)]⟩ : NodeRecord ℚ))
      = jsTrim ("Foo").data :=
  ⟨rfl, rfl, by decide,
   C9_label_resolution_amended.2
     (⟨['n'], ['f'], ['t'], ('h' :: ['i']), [],
       some [(("label").data, MetaVal.str ("Foo").data)]⟩ : NodeRecord ℚ)
     [(("label").data, MetaVal.str ("Foo").data)] ("Foo").data rfl rfl
     (by decide)⟩

theorem mem_nodeScores {α : Type} [LinearOrderedField α] {sim : ℕ → ℕ → α}
    {n i : ℕ} {t : ScoreEntry α} (h : t ∈ nodeScores sim n i) :
    t.j < n ∧ t.j ≠ i ∧ t.sim = sim i t.j := by
  rw [nodeScores] at h
  obtain ⟨j, hj, hjt⟩ := List.mem_filterMap.1 h
  by_cases hij : i = j
  · rw [if_pos hij] at hjt
    simp at hjt
  · rw [if_neg hij] at hjt
    have ht : t = ⟨j, sim i j⟩ := (Option.some.inj hjt).symm
    subst ht
    exact ⟨List.mem_range.1 hj, fun he => hij he.symm, rfl⟩

theorem scoreEntry_mem_nodeScores {α : Type} [LinearOrderedField α]
    (sim : ℕ → ℕ → α) (n i j : ℕ) (hj : j < n) (hij : j ≠ i) :
    (⟨j, sim i j⟩ : ScoreEntry α) ∈ nodeScores sim n i := by
  rw [nodeScores]
  exact List.mem_filterMap.2 ⟨j, List.mem_range.2 hj,
    by rw [if_neg (fun h => hij h.symm)]⟩

theorem nodeScores_pairwise_j {α : Type} [LinearOrderedField α]
    (sim : ℕ → ℕ → α) (n i : ℕ) :
    (nodeScores sim n i).Pairwise (fun a b : ScoreEntry α => a.j < b.j) := by
  rw [nodeScores]
  refine List.pairwise_filterMap.2 ?_
  refine (List.pairwise_lt_range n).imp ?_
  intro a b hab x hx y hy
  by_cases hia : i = a
  · rw [if_pos hia] at hx; simp at hx
  · by_cases hib : i = b
    · rw [if_pos hib] at hy; simp at hy
    · rw [if_neg hia] at hx
      rw [if_neg hib] at hy
      have hxa : x = ⟨a, sim i a⟩ := by simpa using hx.symm
      have hyb : y = ⟨b, sim i b⟩ := by simpa using hy.symm
      rw [hxa, hyb]
      exact hab

theorem getD_ne_of_nodup {ids : List (List Char)} (hnd : ids.Nodup) {k i : ℕ}
    (hk : k < ids.length) (hi : i < ids.length) (hki : k ≠ i) :
    ids.getD k [] ≠ ids.getD i [] := by
  intro he
  rw [List.getD_eq_getElem?_getD, List.getD_eq_getElem?_getD,
    List.getElem?_eq_getElem hk, List.getElem?_eq_getElem hi] at he
  simp only [Option.getD_some] at he
  exact hki ((List.Nodup.getElem_inj_iff hnd).1 he)

theorem flatMap_filter_single {γ : Type} (g : ℕ → List γ) (p : γ → Bool) (i : ℕ) :
    ∀ L : List ℕ, L.Nodup → i ∈ L → (∀ k ∈ L, k ≠ i → (g k).filter p = []) →
      (g i).filter p = g i → (L.flatMap g).filter p = g i := by
  intro L
  induction L with
  | nil => intro _ h; simp at h
  | cons k t ih =>
    intro hnd hi hoth hgi
    rw [List.flatMap_cons, List.filter_append]
    by_cases hk : k = i
    · subst hk
      have ht : (t.flatMap g).filter p = [] := by
        rw [List.filter_flatMap]
        rw [List.flatMap_eq_nil_iff]
        intro k' hk'
        refine hoth k' (List.mem_cons_of_mem k hk') ?_
        intro he
        subst he
        exact (List.nodup_cons.1 hnd).1 hk'
      rw [hgi, ht, List.append_nil]
    · have hit : i ∈ t := by
        rcases List.mem_cons.1 hi with h | h
        · exact absurd h.symm hk
        · exact h
      rw [hoth k (List.mem_cons_self k t) hk, List.nil_append]
      exact ih (List.nodup_cons.1 hnd).2 hit
        (fun k' hk' => hoth k' (List.mem_cons_of_mem k hk')) hgi

/-- C2: for every node `i` of one file's batch (node ids distinct), the
outgoing edges the Graph Builder emits for `i` are exactly the mapped
top-5 score entries: at most 5 of them, never a self-edge, each directed
to a neighbor index `j ≠ i` with weight equal to the similarity
`sim i j` (for the pipeline, the cosine of the two embeddings), sorted by
non-increasing weight, and dominating every unselected candidate in the
lexicographic order "higher similarity first, ties broken by smaller
ingestion index". -/
theorem C2_graph_builder {α : Type} [LinearOrderedField α]
    (ids : List (List Char)) (sim : ℕ → ℕ → α) (hnd : ids.Nodup) (i : ℕ)
    (hi : i < ids.length) :
    ((buildEdges ids sim).filter (fun e => e.source_node_id = ids.getD i [])
        = (nodeTop5 sim ids.length i).map (fun t =>
            ⟨ids.getD i [], ids.getD t.j [], ("semantic").data, t.sim⟩))
    ∧ (nodeTop5 sim ids.length i).length ≤ 5
    ∧ (∀ t ∈ nodeTop5 sim ids.length i,
        t.j < ids.length ∧ t.j ≠ i ∧ t.sim = sim i t.j
          ∧ ids.getD t.j [] ≠ ids.getD i [])
    ∧ (nodeTop5 sim ids.length i).Sorted (keyDesc ScoreEntry.sim)
    ∧ (∀ t ∈ nodeTop5 sim ids.length i, ∀ j < ids.length, j ≠ i →
        j ∉ (nodeTop5 sim ids.length i).map ScoreEntry.j →
        (sim i j < t.sim ∨ (t.sim = sim i j ∧ t.j < j))) := by
  have hmemprops : ∀ t ∈ nodeTop5 sim ids.length i,
      t.j < ids.length ∧ t.j ≠ i ∧ t.sim = sim i t.j := by
    intro t ht
    exact mem_nodeScores ((List.mem_insertionSort _).1 (List.mem_of_mem_take ht))
  refine ⟨?_, ?_, ?_, ?_, ?_⟩
  · rw [buildEdges]
    refine flatMap_filter_single _ _ i (List.range ids.length)
      (List.nodup_range ids.length) (List.mem_range.2 hi) ?_ ?_
    · intro k hk hki
      rw [List.filter_eq_nil_iff]
      intro e he
      obtain ⟨t, _, hte⟩ := List.mem_map.1 he
      rw [← hte]
      simp only [decide_eq_true_eq]
      exact getD_ne_of_nodup hnd (List.mem_range.1 hk) hi hki
    · rw [List.filter_eq_self]
      intro e he
      obtain ⟨t, _, hte⟩ := List.mem_map.1 he
      rw [← hte]
      simp
  · rw [nodeTop5, List.length_take]
    exact min_le_left _ _
  · intro t ht
    obtain ⟨h1, h2, h3⟩ := hmemprops t ht
    exact ⟨h1, h2, h3, getD_ne_of_nodup hnd h1 hi h2⟩
  · exact List.Pairwise.sublist (List.take_sublist _ _)
      (sorted_insertionSort_keyDesc ScoreEntry.sim _)
  · intro t ht j hj hji hnot
    have hx : (⟨j, sim i j⟩ : ScoreEntry α) ∈ nodeScores sim ids.length i :=
      scoreEntry_mem_nodeScores sim ids.length i j hj hji
    have hsortmem : (⟨j, sim i j⟩ : ScoreEntry α)
        ∈ (nodeScores sim ids.length i).insertionSort (keyDesc ScoreEntry.sim) :=
      (List.mem_insertionSort _).2 hx
    have hnottake : (⟨j, sim i j⟩ : ScoreEntry α) ∉ nodeTop5 sim ids.length i := by
      intro hmem
      exact hnot (List.mem_map_of_mem ScoreEntry.j hmem)
    have hdrop : (⟨j, sim i j⟩ : ScoreEntry α)
        ∈ ((nodeScores sim ids.length i).insertionSort
          (keyDesc ScoreEntry.sim)).drop 5 := by
      rw [← List.take_append_drop 5 ((nodeScores sim ids.length i).insertionSort
        (keyDesc ScoreEntry.sim))] at hsortmem
      rcases List.mem_append.1 hsortmem with h | h
      · exact absurd h (by rw [nodeTop5] at hnottake; exact hnottake)
      · exact h
    have hplex := pairwise_lex_insertionSort ScoreEntry.sim ScoreEntry.j
      (nodeScores sim ids.length i) (nodeScores_pairwise_j sim ids.length i)
    have hrel := List.Sorted.rel_of_mem_take_of_mem_drop hplex
      (by rw [nodeTop5] at ht; exact ht) hdrop
    exact hrel

/-- Witness for C2 at a concrete batch of two nodes. -/
theorem C2_witness :
    ([['a'], ['b']] : List (List Char)).Nodup
    ∧ 0 < ([['a'], ['b']] : List (List Char)).length
    ∧ (((buildEdges [['a'], ['b']] (fun _ _ => (0 : ℚ))).filter
          (fun e => e.source_node_id = ([['a'], ['b']] : List (List Char)).getD 0 [])
        = (nodeTop5 (fun _ _ => (0 : ℚ)) ([['a'], ['b']] : List (List Char)).length 0).map
            (fun t => ⟨([['a'], ['b']] : List (List Char)).getD 0 [],
              ([['a'], ['b']] : List (List Char)).getD t.j [], ("semantic").data, t.sim⟩))
      ∧ (nodeTop5 (fun _ _ => (0 : ℚ)) ([['a'], ['b']] : List (List Char)).length 0).length ≤ 5
      ∧ (∀ t ∈ nodeTop5 (fun _ _ => (0 : ℚ)) ([['a'], ['b']] : List (List Char)).length 0,
          t.j < ([['a'], ['b']] : List (List Char)).length ∧ t.j ≠ 0
            ∧ t.sim = (fun _ _ => (0 : ℚ)) 0 t.j
            ∧ ([['a'], ['b']] : List (List Char)).getD t.j []
              ≠ ([['a'], ['b']] : List (List Char)).getD 0 [])
      ∧ (nodeTop5 (fun _ _ => (0 : ℚ)) ([['a'], ['b']] : List (List Char)).length 0).Sorted
          (keyDesc ScoreEntry.sim)
      ∧ (∀ t ∈ nodeTop5 (fun _ _ => (0 : ℚ)) ([['a'], ['b']] : List (List Char)).length 0,
          ∀ j < ([['a'], ['b']] : List (List Char)).length, j ≠ 0 →
          j ∉ (nodeTop5 (fun _ _ => (0 : ℚ)) ([['a'], ['b']] : List (List Char)).length 0).map
            ScoreEntry.j →
          ((fun _ _ => (0 : ℚ)) 0 j < t.sim ∨ (t.sim = (fun _ _ => (0 : ℚ)) 0 j ∧ t.j < j)))) :=
  ⟨by decide, by decide,
   C2_graph_builder [['a'], ['b']] (fun _ _ => (0 : ℚ)) (by decide) 0 (by decide)⟩

end DF
